import Mathlib

/-!
Verification of the `datasize` Go library (`src/datasize.go`).

The library's `Size` type is a `uint64` byte count; we model it as `ℕ`
together with explicit `< 2^64` hypotheses and explicit `% 2^64` where the
Go code can wrap (only `Round`'s final multiplication can).

The Go code computes with IEEE-754 binary64 (`float64`) values.  Every
nonnegative binary64 value is `m * 2^e` for naturals `m < 2^53` and an
integer exponent `e`; we model such values as pairs `⟨m, e⟩` (type `F`)
and implement correctly rounded conversion/division/multiplication by
rounding exact rationals to 53 significant bits with round-to-nearest,
ties-to-even.  The model uses an unbounded exponent range; it agrees
exactly with binary64 on the normal range (and every value that can reach
an integer result in this library is far inside the normal range).
Overflow past the binary64 finite range is detected explicitly
(`x ≥ 2^1024` after rounding, which is exactly the IEEE overflow
condition for round-to-nearest-even), as is decimal-input underflow to
zero (`0 < v ≤ 2^-1075`), because `strconv.ParseFloat` reports both as
`ErrRange`.  Inside the subnormal range the model's finite values can
differ from binary64 by less than `2^-1022`, which never changes any
integer observation made by this library.
-/

set_option maxRecDepth 1000000

namespace Datasize

instance {ε α : Type} [DecidableEq ε] [DecidableEq α] :
    DecidableEq (Except ε α) := fun a b =>
  match a, b with
  | .ok x, .ok y =>
    match decEq x y with
    | isTrue h => isTrue (h ▸ rfl)
    | isFalse h => isFalse fun hh => h (Except.ok.inj hh)
  | .error x, .error y =>
    match decEq x y with
    | isTrue h => isTrue (h ▸ rfl)
    | isFalse h => isFalse fun hh => h (Except.error.inj hh)
  | .ok _, .error _ => isFalse fun hh => Except.noConfusion hh
  | .error _, .ok _ => isFalse fun hh => Except.noConfusion hh

/-! ### Arithmetic primitives (kernel-computable, no `Rat` in definitions) -/

/-- Fuel-driven binary logarithm: `lgAux f n = ⌊log₂ n⌋` whenever `n ≤ f`. -/
def lgAux : ℕ → ℕ → ℕ
  | 0, _ => 0
  | f + 1, n => if n ≤ 1 then 0 else lgAux f (n / 2) + 1

/-- `⌊log₂ n⌋` (0 for `n = 0`). -/
def lg (n : ℕ) : ℕ := lgAux n n

/-- Round `x / y` to the nearest integer, ties to even (IEEE rounding of an
exact quotient to an integer). -/
def rneDiv (x y : ℕ) : ℕ :=
  let q := x / y
  let r := x % y
  if 2 * r < y then q
  else if y < 2 * r then q + 1
  else if q % 2 = 0 then q else q + 1

/-- A nonnegative binary64 value, denoting `m * 2^e`. -/
structure F where
  m : ℕ
  e : ℤ
  deriving DecidableEq

/-- Decides `b * 2^e ≤ a` (comparison of a scaled natural with a natural). -/
def pow2le (b : ℕ) (e : ℤ) (a : ℕ) : Bool :=
  if 0 ≤ e then decide (b * 2 ^ e.toNat ≤ a) else decide (b ≤ a * 2 ^ (-e).toNat)

/-- The binade of `a / b`: the unique `e` with `2^e ≤ a/b < 2^(e+1)`
(for `a, b ≥ 1`). -/
def binade (a b : ℕ) : ℤ :=
  let e0 : ℤ := (lg a : ℤ) - (lg b : ℤ)
  if pow2le b e0 a then e0 else e0 - 1

/-- Correctly rounded conversion of the exact rational `a / b` to the
53-significant-bit (binary64) grid, round-to-nearest ties-to-even.
Returns `⟨m, e⟩` with `2^52 ≤ m ≤ 2^53` denoting `m * 2^e` (or `⟨0, 0⟩`
for zero input). -/
def roundFrac (a b : ℕ) : F :=
  if a = 0 ∨ b = 0 then ⟨0, 0⟩
  else
    let e := binade a b
    let m :=
      if e ≤ 52 then rneDiv (a * 2 ^ (52 - e).toNat) b
      else rneDiv a (b * 2 ^ (e - 52).toNat)
    ⟨m, e - 52⟩

/-- Go `float64(n)` for a natural `n`: round `n` to binary64. -/
def toF (n : ℕ) : F := roundFrac n 1

/-- Go binary64 division `x / y` (correctly rounded; exponent shifts are
exact, so rounding `x.m / y.m` suffices). -/
def fdiv (x y : F) : F :=
  let z := roundFrac x.m y.m
  ⟨z.m, z.e + x.e - y.e⟩

/-- Go binary64 multiplication `x * y` (correctly rounded). -/
def fmul (x y : F) : F :=
  let z := roundFrac (x.m * y.m) 1
  ⟨z.m, z.e + x.e + y.e⟩

/-- Go `math.Floor` for a nonnegative binary64 value, as a natural. -/
def ffloor (x : F) : ℕ :=
  if 0 ≤ x.e then x.m * 2 ^ x.e.toNat else x.m / 2 ^ (-x.e).toNat

/-- Whether a nonnegative binary64 value is a whole number
(Go's `math.Floor(size) == size` test in `format`). -/
def fwhole (x : F) : Bool :=
  if 0 ≤ x.e then true else decide (x.m % 2 ^ (-x.e).toNat = 0)

/-- Go `math.Round` (round half away from zero) of a nonnegative binary64
value, as a natural: `⌊v + 1/2⌋`. -/
def mroundF (x : F) : ℕ :=
  if 0 ≤ x.e then x.m * 2 ^ x.e.toNat
  else (2 * x.m + 2 ^ (-x.e).toNat) / (2 ^ (-x.e).toNat * 2)

/-- `v * 100` rounded to the nearest integer, ties to even: the integer
`fmt` renders (divided by 100) when printing a binary64 value with `%.2f`
(Go's `strconv` fixed-precision decimal conversion rounds the exact binary
value to nearest, ties to even). -/
def rne100 (x : F) : ℕ :=
  if 0 ≤ x.e then x.m * 2 ^ x.e.toNat * 100
  else rneDiv (100 * x.m) (2 ^ (-x.e).toNat)

/-- Decides `n ≤ m * 2^e` for a binary64 value `⟨m, e⟩`. -/
def fgeNat (x : F) (n : ℕ) : Bool :=
  if 0 ≤ x.e then decide (n ≤ x.m * 2 ^ x.e.toNat)
  else decide (n * 2 ^ (-x.e).toNat ≤ x.m)

/-- Decides `m * 2^e < 1` for a binary64 value `⟨m, e⟩`. -/
def fltOne (x : F) : Bool :=
  if 0 ≤ x.e then decide (x.m * 2 ^ x.e.toNat = 0)
  else decide (x.m < 2 ^ (-x.e).toNat)

/-! ### The unit constants (`src/datasize.go` lines 15–30) -/

def Byte : ℕ := 1
def Kilobyte : ℕ := 1000 * Byte
def Megabyte : ℕ := 1000 * Kilobyte
def Gigabyte : ℕ := 1000 * Megabyte
def Terabyte : ℕ := 1000 * Gigabyte
def Petabyte : ℕ := 1000 * Terabyte
def Kibibyte : ℕ := 1024 * Byte
def Mebibyte : ℕ := 1024 * Kibibyte
def Gibibyte : ℕ := 1024 * Mebibyte
def Tebibyte : ℕ := 1024 * Gibibyte
def Pebibyte : ℕ := 1024 * Tebibyte

/-- The descending unit list `units` (`src/datasize.go` lines 34–40). -/
def units : List ℕ :=
  [Pebibyte, Petabyte, Tebibyte, Terabyte, Gibibyte, Gigabyte,
   Mebibyte, Megabyte, Kibibyte, Kilobyte]

/-! ### Floor and Round (`src/datasize.go` lines 121–137) -/

/-- `Size.Floor`: for the first listed unit `≤ s`, truncate to a multiple
of it by integer division; otherwise return `s` unchanged.
`(s / u) * u ≤ s`, so the `uint64` arithmetic cannot wrap. -/
def Floor (s : ℕ) : ℕ :=
  match units.find? (fun u => decide (u ≤ s)) with
  | some u => s / u * u
  | none => s

/-- `Size.Round`: for the first listed unit `≤ s`, compute
`Size(math.Round(float64(s) / float64(unit))) * unit`.  The final `uint64`
multiplication can wrap, hence the `% 2^64`.  (The `Size(...)` conversion
of the rounded quotient is exact truncation: the quotient is an integral
binary64 value far below `2^64`.) -/
def Round (s : ℕ) : ℕ :=
  match units.find? (fun u => decide (u ≤ s)) with
  | some u => mroundF (fdiv (toF s) (toF u)) * u % 2 ^ 64
  | none => s

/-! ### String formatting (`src/datasize.go` lines 94–173) -/

/-- Decimal digits of `n`, most significant first (fuel-driven). -/
def natStrAux : ℕ → ℕ → List Char
  | 0, _ => []
  | f + 1, n =>
    if n < 10 then [Nat.digitChar n]
    else natStrAux f (n / 10) ++ [Nat.digitChar (n % 10)]

/-- Decimal rendering of a natural (Go `%d`). -/
def natStr (n : ℕ) : List Char := natStrAux (n + 1) n

/-- Two-digit zero-padded rendering of `n < 100`. -/
def pad2 (n : ℕ) : List Char :=
  if n < 10 then '0' :: natStr n else natStr n

/-- The `format` helper (`src/datasize.go` lines 168–173): whole binary64
values print as integers (`%d` of the value), others with exactly two
decimals (`%.2f`). -/
def format (size : F) (suffix : List Char) : List Char :=
  if fwhole size then natStr (ffloor size) ++ suffix
  else
    let c := rne100 size
    natStr (c / 100) ++ '.' :: pad2 (c % 100) ++ suffix

/-- `Size.Petabytes` etc.: `float64(s) / float64(unit)`. -/
def Petabytes (s : ℕ) : F := fdiv (toF s) (toF Petabyte)
def Pebibytes (s : ℕ) : F := fdiv (toF s) (toF Pebibyte)
def Terabytes (s : ℕ) : F := fdiv (toF s) (toF Terabyte)
def Tebibytes (s : ℕ) : F := fdiv (toF s) (toF Tebibyte)
def Gigabytes (s : ℕ) : F := fdiv (toF s) (toF Gigabyte)
def Gibibytes (s : ℕ) : F := fdiv (toF s) (toF Gibibyte)
def Megabytes (s : ℕ) : F := fdiv (toF s) (toF Megabyte)
def Mebibytes (s : ℕ) : F := fdiv (toF s) (toF Mebibyte)
def Kilobytes (s : ℕ) : F := fdiv (toF s) (toF Kilobyte)
def Kibibytes (s : ℕ) : F := fdiv (toF s) (toF Kibibyte)

/-- `Size.String` (`src/datasize.go` lines 139–166). -/
def sizeString (s : ℕ) : List Char :=
  if s = 0 then "0B".data
  else if s % Petabyte = 0 then format (Petabytes s) "PB".data
  else if Pebibyte ≤ s then format (Pebibytes s) "PiB".data
  else if s % Terabyte = 0 then format (Terabytes s) "TB".data
  else if Tebibyte ≤ s then format (Tebibytes s) "TiB".data
  else if s % Gigabyte = 0 then format (Gigabytes s) "GB".data
  else if Gibibyte ≤ s then format (Gibibytes s) "GiB".data
  else if s % Megabyte = 0 then format (Megabytes s) "MB".data
  else if Mebibyte ≤ s then format (Mebibytes s) "MiB".data
  else if s % Kilobyte = 0 then format (Kilobytes s) "kB".data
  else if Kibibyte ≤ s then format (Kibibytes s) "KiB".data
  else natStr s ++ "B".data

/-! ### `strconv.ParseFloat` model

`Parse` calls `strconv.ParseFloat(s, 64)`.  We model its accept/reject
behaviour and resulting value from the documented Go semantics: optional
sign; `inf`/`infinity`/`nan` specials; decimal or (`0x`, mandatory `p`
exponent) hexadecimal mantissa with optional fraction and exponent, with
underscores permitted exactly as in Go numeric literals; the whole string
must be consumed; the result is the exact value correctly rounded.
`ErrRange` (a non-nil error, with result ±Inf) is reported on overflow
only; a nonzero value that underflows to zero parses as 0 with a nil
error (`strconv`'s `floatBits` sets its overflow flag only in the
overflow branch). -/

/-- `strconv.ParseFloat` failure kinds (`ErrSyntax` / `ErrRange`). -/
inductive PFErr where
  | invalid
  | outOfRange
  deriving DecidableEq

/-- A `float64` result: a signed finite value, an infinity, or NaN. -/
inductive GoFloat where
  | finite (x : F) (neg : Bool)
  | inf (neg : Bool)
  | nan
  deriving DecidableEq

/-- ASCII `[0-9]` (codes 48–57). -/
def isDigitC (c : Char) : Bool := decide (48 ≤ c.toNat) && decide (c.toNat ≤ 57)

/-- ASCII `[0-9a-fA-F]`. -/
def isHexDigitC (c : Char) : Bool :=
  isDigitC c || (decide (97 ≤ c.toNat) && decide (c.toNat ≤ 102))
    || (decide (65 ≤ c.toNat) && decide (c.toNat ≤ 70))

/-- ASCII `[a-z]` (codes 97–122), the regex letter class. -/
def isLowerAZ (c : Char) : Bool := decide (97 ≤ c.toNat) && decide (c.toNat ≤ 122)

/-- Strip one leading sign; returns (rest, negative?, had-sign?). -/
def dropSign (l : List Char) : List Char × Bool × Bool :=
  match l with
  | [] => ([], false, false)
  | c :: r =>
    if c = '+' then (r, false, true)
    else if c = '-' then (r, true, true)
    else (l, false, false)

/-- Case-insensitive equality against an ASCII-lowercase target, byte-wise
as in `strconv` (`c | 0x20` comparison: a char matches a lowercase letter
`t` iff it is `t` or `t - 32`). -/
def ciEqA : List Char → List Char → Bool
  | [], [] => true
  | c :: cs, t :: ts => (c = t || c.toNat + 32 = t.toNat) && ciEqA cs ts
  | _, _ => false

/-- One step class for `strconv`'s `underscoreOK`: digits of the current
base (hex or decimal). -/
def uokDigit (hex : Bool) (c : Char) : Bool :=
  if hex then isHexDigitC c else isDigitC c

/-- Loop of `strconv.underscoreOK`: `saw` is `'^'` at the start, `'0'`
after a digit (or the base prefix), `'_'` after an underscore, `'!'`
otherwise; every underscore must follow and precede a digit. -/
def uokLoop (hex : Bool) : Char → List Char → Bool
  | saw, [] => decide (saw ≠ '_')
  | saw, c :: rest =>
    if uokDigit hex c then uokLoop hex '0' rest
    else if c = '_' then (if saw = '0' then uokLoop hex '_' rest else false)
    else if saw = '_' then false
    else uokLoop hex '!' rest

/-- `strconv.underscoreOK`: underscores are legal only as digit
separators (the `0x` base prefix counts as a digit position). -/
def underscoreOK (s : List Char) : Bool :=
  match (dropSign s).1 with
  | '0' :: c :: rest =>
    if c = 'x' || c = 'X' then uokLoop true '0' rest
    else uokLoop false '^' ('0' :: c :: rest)
  | other => uokLoop false '^' other

/-- Numeric value of a list of decimal digit chars. -/
def natOfDigits (l : List Char) : ℕ :=
  l.foldl (fun n c => 10 * n + (c.toNat - 48)) 0

def hexDigitVal (c : Char) : ℕ :=
  if isDigitC c then c.toNat - 48
  else if decide (97 ≤ c.toNat) && decide (c.toNat ≤ 102) then c.toNat - 97 + 10
  else c.toNat - 65 + 10

/-- Numeric value of a list of hexadecimal digit chars. -/
def natOfHexDigits (l : List Char) : ℕ :=
  l.foldl (fun n c => 16 * n + hexDigitVal c) 0

/-- Shared rounding/range step: the exact value `a / b` becomes a finite
binary64 value; a nonzero value that underflows to zero
(`a/b ≤ 2^-1075`, the round-to-nearest tie with ties-to-even included)
parses as 0 with a nil error, and only overflow to infinity (rounded
value `≥ 2^1024`) reports `ErrRange`. -/
def decideRange (a b : ℕ) (neg : Bool) : Except PFErr GoFloat :=
  if a = 0 then .ok (.finite ⟨0, 0⟩ neg)
  else if a * 2 ^ 1075 ≤ b then .ok (.finite ⟨0, 0⟩ neg)
  else
    let x := roundFrac a b
    if fgeNat x (2 ^ 1024) then .error .outOfRange
    else .ok (.finite x neg)

/-- Finish a decimal literal: mantissa digits (integer and fraction parts
concatenated), fraction length and signed exponent.  The coarse exponent
caps only short-circuit cases whose outcome is certain (`mant ≥ 1`, so
`exp10 > 400` means the value is `≥ 10^401`, a sure overflow, and with
`L` mantissa digits `exp10 < -(400 + L)` means it is `< 10^-400 <
2^-1075`, a sure underflow to zero — which parses as 0 with nil
error). -/
def mkDec (mant : ℕ) (fracLen : ℕ) (eVal : ℤ) (neg : Bool) :
    Except PFErr GoFloat :=
  let exp10 : ℤ := eVal - fracLen
  if mant = 0 then .ok (.finite ⟨0, 0⟩ neg)
  else if 400 < exp10 then .error .outOfRange
  else if exp10 < -(400 + ((natStr mant).length : ℤ)) then .ok (.finite ⟨0, 0⟩ neg)
  else if 0 ≤ exp10 then decideRange (mant * 10 ^ exp10.toNat) 1 neg
  else decideRange mant (10 ^ (-exp10).toNat) neg

/-- Finish a hexadecimal literal: `mant * 2^e2` with the analogous coarse
caps (`mant ≥ 1` and `L` hex digits give `2^e2 ≤ v < 2^(4L + e2)`): a
certain overflow reports `ErrRange`, a certain underflow to zero parses
as 0 with nil error. -/
def mkHex (mant : ℕ) (hexLen : ℕ) (e2 : ℤ) (neg : Bool) :
    Except PFErr GoFloat :=
  if mant = 0 then .ok (.finite ⟨0, 0⟩ neg)
  else if 1100 < e2 then .error .outOfRange
  else if 4 * (hexLen : ℤ) + e2 < -1100 then .ok (.finite ⟨0, 0⟩ neg)
  else if 0 ≤ e2 then decideRange (mant * 2 ^ e2.toNat) 1 neg
  else decideRange mant (2 ^ (-e2).toNat) neg

/-- Decimal number body (sign and underscores already removed): digits,
optional `.digits`, optional `e`/`E` exponent; at least one mantissa
digit; the whole input must be consumed. -/
def parseDec (r : List Char) (neg : Bool) : Except PFErr GoFloat :=
  let (d1, r1) := r.span isDigitC
  let fr : List Char × List Char :=
    match r1 with
    | '.' :: t => t.span isDigitC
    | _ => ([], r1)
  let d2 := fr.1
  let r2 := fr.2
  if d1 = [] && d2 = [] then .error .invalid
  else
    match r2 with
    | [] => mkDec (natOfDigits (d1 ++ d2)) d2.length 0 neg
    | e :: t =>
      if e = 'e' || e = 'E' then
        let (t2, eneg, _) := dropSign t
        let (d3, r3) := t2.span isDigitC
        if d3 = [] || r3 ≠ [] then .error .invalid
        else
          mkDec (natOfDigits (d1 ++ d2)) d2.length
            (if eneg then -(natOfDigits d3 : ℤ) else (natOfDigits d3 : ℤ)) neg
      else .error .invalid

/-- Hexadecimal number body (after the `0x`/`0X` prefix): hex digits,
optional `.hexdigits`, mandatory `p`/`P` exponent (decimal, optional
sign); at least one mantissa digit; whole input consumed. -/
def parseHex (r : List Char) (neg : Bool) : Except PFErr GoFloat :=
  let (h1, r1) := r.span isHexDigitC
  let fr : List Char × List Char :=
    match r1 with
    | '.' :: t => t.span isHexDigitC
    | _ => ([], r1)
  let h2 := fr.1
  let r2 := fr.2
  if h1 = [] && h2 = [] then .error .invalid
  else
    match r2 with
    | p :: t =>
      if p = 'p' || p = 'P' then
        let (t2, eneg, _) := dropSign t
        let (d3, r3) := t2.span isDigitC
        if d3 = [] || r3 ≠ [] then .error .invalid
        else
          mkHex (natOfHexDigits (h1 ++ h2)) (h1 ++ h2).length
            ((if eneg then -(natOfDigits d3 : ℤ) else (natOfDigits d3 : ℤ))
              - 4 * h2.length) neg
      else .error .invalid
    | [] => .error .invalid

/-- Number body dispatch: a `0x`/`0X` prefix selects the hexadecimal
grammar. -/
def parseNum (r : List Char) (neg : Bool) : Except PFErr GoFloat :=
  match r with
  | '0' :: c :: rest =>
    if c = 'x' || c = 'X' then parseHex rest neg else parseDec r neg
  | _ => parseDec r neg

/-- `strconv.ParseFloat(s, 64)`: specials first (`inf`/`infinity` with
optional sign, unsigned `nan`, case-insensitive, whole string), then the
numeric grammar with the underscore legality check. -/
def goParseFloat (s : List Char) : Except PFErr GoFloat :=
  let (r, neg, hadSign) := dropSign s
  if ciEqA r "inf".data || ciEqA r "infinity".data then .ok (.inf neg)
  else if !hadSign && ciEqA r "nan".data then .ok .nan
  else if !underscoreOK s then .error .invalid
  else parseNum (r.filter (fun c => decide (c ≠ '_'))) neg

/-! ### `Parse` (`src/datasize.go` lines 42–92) -/

/-- The error kinds `Parse` can return: its own three errors plus the two
`strconv.ParseFloat` error kinds passed through from the regex path's
numeric conversion (`Parse` line 54–57 returns that error verbatim). -/
inductive GoErr where
  | emptyErr
  | formatErr
  | suffixErr
  | numSyntaxErr
  | numRangeErr
  deriving DecidableEq

/-- Go `strings.ToLower` restricted to what the size regex can see:
ASCII uppercase maps into `a`–`z`, as do U+212A (KELVIN SIGN → `k`) and
U+0130 (`İ` → `i`); every other rune lowers to a rune outside all three
regex character classes (`[0-9]`, `\.`, `[a-z]`), so mapping it to itself
classifies identically. -/
def goToLower (c : Char) : Char :=
  if 65 ≤ c.toNat ∧ c.toNat ≤ 90 then Char.ofNat (c.toNat + 32)
  else if c.toNat = 0x212A then 'k'
  else if c.toNat = 0x0130 then 'i'
  else c

/-- One attempt of the regex `([0-9]*)(\.[0-9]*)?([a-z]+)` anchored at the
head of `l`: greedy digits, then either a literal dot with greedy digits
or nothing, then at least one `a-z` letter.  (The character classes are
disjoint, so the backtracking of Go's leftmost-first semantics can never
produce any other submatch split at a given start position.) -/
def matchAt (l : List Char) : Option (List Char × List Char × List Char) :=
  let (d1, r1) := l.span isDigitC
  match r1 with
  | '.' :: t =>
    let (d2, r3) := t.span isDigitC
    let su := (r3.span isLowerAZ).1
    if su = [] then none else some (d1, '.' :: d2, su)
  | _ =>
    let su := (r1.span isLowerAZ).1
    if su = [] then none else some (d1, [], su)

/-- `sizeRegex.FindStringSubmatch`: the match at the leftmost start
position where one exists. -/
def findMatch : List Char → Option (List Char × List Char × List Char)
  | [] => none
  | c :: rest =>
    match matchAt (c :: rest) with
    | some m => some m
    | none => findMatch rest

/-- `suffixSize` (`src/datasize.go` lines 65–92). -/
def suffixSize (suffix : List Char) : Except GoErr ℕ :=
  if suffix = "b".data then .ok Byte
  else if suffix = "kb".data then .ok Kilobyte
  else if suffix = "mb".data then .ok Megabyte
  else if suffix = "gb".data then .ok Gigabyte
  else if suffix = "tb".data then .ok Terabyte
  else if suffix = "pb".data then .ok Petabyte
  else if suffix = "kib".data then .ok Kibibyte
  else if suffix = "mib".data then .ok Mebibyte
  else if suffix = "gib".data then .ok Gibibyte
  else if suffix = "tib".data then .ok Tebibyte
  else if suffix = "pib".data then .ok Pebibyte
  else .error .suffixErr

/-- Go's conversion `Size(f)` of a `float64` to `uint64`: truncation
toward zero where the truncated value is representable (`-1 < f < 2^64`);
otherwise (including ±Inf and NaN) the Go specification makes the result
implementation-defined, which we model as `none`. -/
def szOfFloat : GoFloat → Option ℕ
  | .nan => none
  | .inf _ => none
  | .finite x neg =>
    if neg then (if fltOne x then some 0 else none)
    else if fgeNat x (2 ^ 64) then none else some (ffloor x)

/-- `Size(f * float64(sz))` on the regex path: binary64 multiply (overflow
to +Inf exactly when the rounded product is `≥ 2^1024`), then the
conversion above.  `f` here is nonnegative, so only the upper range
matters. -/
def szOfProd (x : F) (u : ℕ) : Option ℕ :=
  let p := fmul x (toF u)
  if fgeNat p (2 ^ 1024) then none
  else if fgeNat p (2 ^ 64) then none
  else some (ffloor p)

/-- `Parse` (`src/datasize.go` lines 42–63).  `ok none` means the call
succeeds (nil error) but the resulting `Size` is implementation-defined
(an out-of-range float-to-integer conversion). -/
def Parse (s : List Char) : Except GoErr (Option ℕ) :=
  if s = [] then .error .emptyErr
  else
    match goParseFloat s with
    | .ok g => .ok (szOfFloat g)
    | .error _ =>
      match findMatch (s.map goToLower) with
      | none => .error .formatErr
      | some (ints, frac, suffix) =>
        match goParseFloat (ints ++ frac) with
        | .error .invalid => .error .numSyntaxErr
        | .error .outOfRange => .error .numRangeErr
        | .ok (.finite x _) =>
          match suffixSize suffix with
          | .error e => .error e
          | .ok u => .ok (szOfProd x u)
        | .ok _ =>
          -- unreachable: a digits-and-dot string is never a special
          match suffixSize suffix with
          | .error e => .error e
          | .ok _ => .ok none

/-- `Parse` on a Lean `String`. -/
def ParseS (s : String) : Except GoErr (Option ℕ) := Parse s.data

/-- `Size.String` as a Lean `String`. -/
def sizeStringS (s : ℕ) : String := ⟨sizeString s⟩

/-! ### The flag adapter (`src/datasize.go` lines 242–249) -/

/-- `sizeFlag.Set`: re-parse; on error return it and leave the stored
value unchanged, otherwise store the parsed value.  The stored `Size` is
an `Option ℕ` for the same reason as `Parse`'s result. -/
def sizeFlagSet (prev : Option ℕ) (s : List Char) :
    Option ℕ × Option GoErr :=
  match Parse s with
  | .error e => (prev, some e)
  | .ok v => (v, none)

/-! ### Spec-side reference definitions

These transcribe the specification's wording (not the code) and are
compared with the source-derived definitions in the theorems below. -/

/-- Spec 4.3: "for the first unit ≤ the value, return (value
integer-divided by that unit's byte size) × that unit's byte size",
with the ten units tried in the spec's descending order, "if the value is
smaller than every listed unit ... return the value unchanged". -/
def floorSpec (s : ℕ) : ℕ :=
  if Pebibyte ≤ s then s / Pebibyte * Pebibyte
  else if Petabyte ≤ s then s / Petabyte * Petabyte
  else if Tebibyte ≤ s then s / Tebibyte * Tebibyte
  else if Terabyte ≤ s then s / Terabyte * Terabyte
  else if Gibibyte ≤ s then s / Gibibyte * Gibibyte
  else if Gigabyte ≤ s then s / Gigabyte * Gigabyte
  else if Mebibyte ≤ s then s / Mebibyte * Mebibyte
  else if Megabyte ≤ s then s / Megabyte * Megabyte
  else if Kibibyte ≤ s then s / Kibibyte * Kibibyte
  else if Kilobyte ≤ s then s / Kilobyte * Kilobyte
  else s

/-- The nearest whole multiple of `u` with ties away from zero:
`⌊s/u + 1/2⌋ * u = (2s + u) / (2u) * u` in integer arithmetic. -/
def roundHalfUp (s u : ℕ) : ℕ := (2 * s + u) / (2 * u) * u

/-- Spec 4.4: same unit selection as Floor, rounding the positive
magnitude half up. -/
def roundSpec (s : ℕ) : ℕ :=
  match units.find? (fun u => decide (u ≤ s)) with
  | some u => roundHalfUp s u
  | none => s

/-- Spec 4.2 rendering: the magnitude is the floating-point quotient
value/unit; a whole magnitude renders as an integer (no decimal point),
otherwise with exactly two decimal digits, followed by the suffix. -/
def specRender (s u : ℕ) (suf : List Char) : List Char :=
  let mag := fdiv (toF s) (toF u)
  if fwhole mag then natStr (ffloor mag) ++ suf
  else natStr (rne100 mag / 100) ++ '.' :: pad2 (rne100 mag % 100) ++ suf

/-- Spec 4.2: the five magnitude tiers in descending order; per tier the
decimal unit's exact-multiple test precedes the binary unit's ≥ test. -/
def specTiers : List (ℕ × ℕ × List Char × List Char) :=
  [(Petabyte, Pebibyte, "PB".data, "PiB".data),
   (Terabyte, Tebibyte, "TB".data, "TiB".data),
   (Gigabyte, Gibibyte, "GB".data, "GiB".data),
   (Megabyte, Mebibyte, "MB".data, "MiB".data),
   (Kilobyte, Kibibyte, "kB".data, "KiB".data)]

/-- Spec 4.2 unit selection: first matching condition in the interleaved
order wins; on fall-through, plain integer byte count followed by `B`. -/
def specLoop (s : ℕ) : List (ℕ × ℕ × List Char × List Char) → List Char
  | [] => natStr s ++ "B".data
  | (dec, bin, dsuf, bsuf) :: rest =>
    if s % dec = 0 then specRender s dec dsuf
    else if bin ≤ s then specRender s bin bsuf
    else specLoop s rest

/-- Spec 4.2: zero formats as `0B`; otherwise the tier loop. -/
def specString (s : ℕ) : List Char :=
  if s = 0 then "0B".data else specLoop s specTiers

/-- The digits of the regex fraction group (`frac` is `[]` or `'.' ::
digits`). -/
def fracDigits : List Char → List Char
  | '.' :: d => d
  | _ => []

/-- The amended error classification of `Parse`: empty input; success of
the whole-string float fast path; no regex match (equivalently, no `a-z`
letter after lowering) giving the format error; a digitless matched
numeric portion giving `strconv`'s syntax error; an out-of-range numeric
portion giving `strconv`'s range error; an unknown suffix giving the
suffix error; otherwise success with the truncated product. -/
def parseSpec (s : List Char) : Except GoErr (Option ℕ) :=
  if s = [] then .error .emptyErr
  else
    match goParseFloat s with
    | .ok g => .ok (szOfFloat g)
    | .error _ =>
      match findMatch (s.map goToLower) with
      | none => .error .formatErr
      | some (ints, frac, su) =>
        if ints = [] ∧ (frac = [] ∨ frac = ['.']) then .error .numSyntaxErr
        else
          match mkDec (natOfDigits (ints ++ fracDigits frac))
              (fracDigits frac).length 0 false with
          | .error _ => .error .numRangeErr
          | .ok (.finite x _) =>
            match suffixSize su with
            | .error e => .error e
            | .ok u => .ok (szOfProd x u)
          | .ok _ => .ok none

/-! ### Interpretation of the float model in `ℚ` (proof layer) -/

/-- The exact rational value of a model float. -/
def fval (x : F) : ℚ := (x.m : ℚ) * 2 ^ x.e

/-! ### Basic lemmas: `lg`, `rneDiv` -/

theorem lgAux_spec : ∀ (f n : ℕ), 1 ≤ n → n ≤ f →
    2 ^ lgAux f n ≤ n ∧ n < 2 ^ (lgAux f n + 1) := by
  intro f
  induction f with
  | zero => intro n h1 h; omega
  | succ f ih =>
    intro n h1 h
    rw [lgAux]
    by_cases hn : n ≤ 1
    · simp [hn]; omega
    · have h2 : 2 ≤ n := by omega
      have hd1 : 1 ≤ n / 2 := by omega
      have hdf : n / 2 ≤ f := by omega
      obtain ⟨ih1, ih2⟩ := ih (n / 2) hd1 hdf
      rw [if_neg hn]
      constructor
      · have : 2 ^ (lgAux f (n / 2) + 1) = 2 * 2 ^ lgAux f (n / 2) := by ring
        rw [this]; omega
      · have : 2 ^ (lgAux f (n / 2) + 1 + 1) = 2 * 2 ^ (lgAux f (n / 2) + 1) := by
          ring
        rw [this]; omega

theorem lg_spec (n : ℕ) (h1 : 1 ≤ n) : 2 ^ lg n ≤ n ∧ n < 2 ^ (lg n + 1) :=
  lgAux_spec n n h1 le_rfl

/-- `rneDiv` is the exact quotient when the division is exact. -/
theorem rneDiv_exact (x y : ℕ) (hy : 0 < y) (hdvd : y ∣ x) :
    rneDiv x y = x / y := by
  obtain ⟨c, rfl⟩ := hdvd
  have hr : y * c % y = 0 := Nat.mul_mod_right y c
  unfold rneDiv
  simp only [hr]
  rw [if_pos (by omega)]

/-- Decomposition of an exact rational quotient via Euclidean division. -/
theorem div_decomp (x y : ℕ) (hy : 0 < y) :
    (x : ℚ) / y = ((x / y : ℕ) : ℚ) + ((x % y : ℕ) : ℚ) / y := by
  have hyQ : (0 : ℚ) < (y : ℚ) := by exact_mod_cast hy
  have hxeQ : (y : ℚ) * ((x / y : ℕ) : ℚ) + ((x % y : ℕ) : ℚ) = (x : ℚ) := by
    exact_mod_cast congrArg (Nat.cast : ℕ → ℚ) (Nat.div_add_mod x y)
  have h2 : ((x / y : ℕ) : ℚ) + ((x % y : ℕ) : ℚ) / y
      = ((y : ℚ) * ((x / y : ℕ) : ℚ) + ((x % y : ℕ) : ℚ)) / y := by
    rw [add_div]
    congr 1
    rw [mul_comm, mul_div_assoc, div_self (ne_of_gt hyQ), mul_one]
  rw [h2, hxeQ]

/-- `rneDiv x y` differs from the exact quotient by at most `1/2`. -/
theorem rneDiv_err (x y : ℕ) (hy : 0 < y) :
    |((rneDiv x y : ℚ)) - (x : ℚ) / y| ≤ 1 / 2 := by
  have hyQ : (0 : ℚ) < (y : ℚ) := by exact_mod_cast hy
  have hkey := div_decomp x y hy
  unfold rneDiv
  by_cases h1 : 2 * (x % y) < y
  · rw [if_pos h1, hkey]
    have h2 : ((x % y : ℕ) : ℚ) / y < 1 / 2 := by
      rw [div_lt_iff hyQ]
      have : ((2 * (x % y) : ℕ) : ℚ) < ((y : ℕ) : ℚ) := by exact_mod_cast h1
      push_cast at this ⊢
      linarith
    have h0 : (0 : ℚ) ≤ ((x % y : ℕ) : ℚ) / y := by positivity
    rw [abs_le]; constructor <;> [linarith; linarith]
  · rw [if_neg h1]
    have hge : 1 / 2 ≤ ((x % y : ℕ) : ℚ) / y := by
      rw [le_div_iff hyQ]
      have : ((y : ℕ) : ℚ) ≤ ((2 * (x % y) : ℕ) : ℚ) := by exact_mod_cast by omega
      push_cast at this ⊢
      linarith
    have hlt : ((x % y : ℕ) : ℚ) / y < 1 := by
      rw [div_lt_one hyQ]
      exact_mod_cast Nat.mod_lt x hy
    by_cases h2 : y < 2 * (x % y)
    · rw [if_pos h2, hkey]
      push_cast
      rw [abs_le]; constructor <;> [linarith; linarith]
    · rw [if_neg h2]
      have hhalf : ((x % y : ℕ) : ℚ) / y = 1 / 2 := by
        rw [div_eq_iff (ne_of_gt hyQ)]
        have h3 : 2 * (x % y) = y := by omega
        have : ((2 * (x % y) : ℕ) : ℚ) = ((y : ℕ) : ℚ) := by exact_mod_cast h3
        push_cast at this ⊢
        linarith
      by_cases h4 : x / y % 2 = 0
      · rw [if_pos h4, hkey, hhalf]
        rw [abs_le]; constructor <;> [linarith; linarith]
      · rw [if_neg h4, hkey, hhalf]
        push_cast
        rw [abs_le]; constructor <;> [linarith; linarith]

/-! ### Binade and rounding correctness -/

theorem two_zpow_pos (e : ℤ) : (0 : ℚ) < 2 ^ e := by positivity

theorem two_zpow_nat (n : ℕ) : ((2 ^ n : ℕ) : ℚ) = (2 : ℚ) ^ (n : ℤ) := by
  push_cast
  rw [zpow_natCast]

/-- `pow2le` decides `b * 2^e ≤ a` over `ℚ`. -/
theorem pow2le_iff (b : ℕ) (e : ℤ) (a : ℕ) :
    pow2le b e a = true ↔ (b : ℚ) * 2 ^ e ≤ (a : ℚ) := by
  unfold pow2le
  by_cases he : 0 ≤ e
  · rw [if_pos he]
    have h2 : (2 : ℚ) ^ e = ((2 ^ e.toNat : ℕ) : ℚ) := by
      rw [two_zpow_nat, Int.toNat_of_nonneg he]
    rw [h2]
    simp only [decide_eq_true_eq]
    constructor
    · intro h; exact_mod_cast h
    · intro h; exact_mod_cast h
  · rw [if_neg he]
    have hk : (2 : ℚ) ^ e = (((2 : ℚ) ^ (-e).toNat)⁻¹) := by
      rw [← zpow_natCast (2 : ℚ) (-e).toNat, Int.toNat_of_nonneg (by omega), ←
        zpow_neg, neg_neg]
    have hpos : (0 : ℚ) < (2 : ℚ) ^ (-e).toNat := by positivity
    simp only [decide_eq_true_eq]
    rw [hk]
    constructor
    · intro h
      rw [mul_inv_le_iff₀ hpos]
      calc (b : ℚ) ≤ ((a * 2 ^ (-e).toNat : ℕ) : ℚ) := by exact_mod_cast h
        _ = (a : ℚ) * 2 ^ (-e).toNat := by push_cast; ring
    · intro h
      rw [mul_inv_le_iff₀ hpos] at h
      have : (b : ℚ) ≤ ((a * 2 ^ (-e).toNat : ℕ) : ℚ) := by push_cast; linarith
      exact_mod_cast this

/-- The binade bracket: `2^e * b ≤ a < 2^(e+1) * b` for `e = binade a b`. -/
theorem binade_spec (a b : ℕ) (ha : 1 ≤ a) (hb : 1 ≤ b) :
    (2 : ℚ) ^ binade a b * b ≤ a ∧ (a : ℚ) < 2 ^ (binade a b + 1) * b := by
  have hne : (2 : ℚ) ≠ 0 := by norm_num
  obtain ⟨ha1, ha2⟩ := lg_spec a ha
  obtain ⟨hb1, hb2⟩ := lg_spec b hb
  have ha1Q : (2 : ℚ) ^ ((lg a : ℤ)) ≤ a := by
    rw [← two_zpow_nat]; exact_mod_cast ha1
  have ha2Q : (a : ℚ) < 2 ^ ((lg a : ℤ) + 1) :=
    calc (a : ℚ) < ((2 ^ (lg a + 1) : ℕ) : ℚ) := by exact_mod_cast ha2
      _ = 2 ^ ((lg a : ℤ) + 1) := by rw [two_zpow_nat]; norm_cast
  have hb1Q : (2 : ℚ) ^ ((lg b : ℤ)) ≤ b := by
    rw [← two_zpow_nat]; exact_mod_cast hb1
  have hb2Q : (b : ℚ) < 2 ^ ((lg b : ℤ) + 1) :=
    calc (b : ℚ) < ((2 ^ (lg b + 1) : ℕ) : ℚ) := by exact_mod_cast hb2
      _ = 2 ^ ((lg b : ℤ) + 1) := by rw [two_zpow_nat]; norm_cast
  unfold binade
  set e0 : ℤ := (lg a : ℤ) - (lg b : ℤ) with he0
  by_cases hc : pow2le b e0 a = true
  · rw [if_pos hc]
    refine ⟨by rw [mul_comm]; exact (pow2le_iff b e0 a).mp hc, ?_⟩
    calc (a : ℚ) < 2 ^ ((lg a : ℤ) + 1) := ha2Q
      _ = 2 ^ (e0 + 1) * 2 ^ ((lg b : ℤ)) := by
          rw [← zpow_add₀ hne]; congr 1; omega
      _ ≤ 2 ^ (e0 + 1) * b := by
          have := two_zpow_pos (e0 + 1)
          nlinarith
  · rw [if_neg hc]
    have hlt : (a : ℚ) < (b : ℚ) * 2 ^ e0 := by
      have := (pow2le_iff b e0 a).not.mp hc
      push_neg at this
      linarith
    constructor
    · have hstep : (2 : ℚ) ^ (e0 - 1) * b < 2 ^ ((lg a : ℤ)) := by
        have hp := two_zpow_pos (e0 - 1)
        calc (2 : ℚ) ^ (e0 - 1) * b < 2 ^ (e0 - 1) * 2 ^ ((lg b : ℤ) + 1) := by
              nlinarith
          _ = 2 ^ ((lg a : ℤ)) := by rw [← zpow_add₀ hne]; congr 1; omega
      linarith
    · rw [sub_add_cancel]
      linarith

/-- Unified form of `roundFrac`'s mantissa: one of the two scale factors
is `2^0 = 1`, so both branches are `rneDiv (a * 2^(52-e)) (b * 2^(e-52))`
with `toNat` clamping. -/
theorem roundFrac_eq (a b : ℕ) (ha : ¬(a = 0 ∨ b = 0)) :
    roundFrac a b =
      ⟨rneDiv (a * 2 ^ ((52 : ℤ) - binade a b).toNat)
        (b * 2 ^ (binade a b - 52).toNat), binade a b - 52⟩ := by
  unfold roundFrac
  rw [if_neg ha]
  by_cases he : binade a b ≤ 52
  · have h1 : (binade a b - 52).toNat = 0 := by omega
    simp only [if_pos he, h1, pow_zero, mul_one]
  · have h1 : ((52 : ℤ) - binade a b).toNat = 0 := by omega
    simp only [if_neg he, h1, pow_zero, mul_one]

/-- The scaled fraction fed to `rneDiv` equals `(a/b) * 2^(52-e)`. -/
theorem scale_q (a b : ℕ) (e : ℤ) (hb : b ≠ 0) :
    ((a * 2 ^ ((52 : ℤ) - e).toNat : ℕ) : ℚ) / ((b * 2 ^ (e - 52).toNat : ℕ) : ℚ)
      = (a : ℚ) / b * 2 ^ ((52 : ℤ) - e) := by
  have hbQ : (b : ℚ) ≠ 0 := Nat.cast_ne_zero.mpr hb
  have hp2 : (0 : ℚ) < 2 ^ (e - 52) := two_zpow_pos _
  have hsum : (2 : ℚ) ^ ((52 : ℤ) - e) * 2 ^ (e - 52) = 1 := by
    rw [← zpow_add₀ (by norm_num : (2 : ℚ) ≠ 0)]
    norm_num
  by_cases he : e ≤ 52
  · have h1 : (e - 52).toNat = 0 := by omega
    have h2 : (((52 : ℤ) - e).toNat : ℤ) = 52 - e := by omega
    rw [h1]
    push_cast
    rw [mul_one, ← zpow_natCast (2 : ℚ) ((52 : ℤ) - e).toNat, h2]
    ring
  · have h1 : ((52 : ℤ) - e).toNat = 0 := by omega
    have h2 : (((e : ℤ) - 52).toNat : ℤ) = e - 52 := by omega
    rw [h1]
    push_cast
    rw [mul_one, ← zpow_natCast (2 : ℚ) (e - 52).toNat, h2, div_mul_eq_mul_div,
      div_eq_div_iff (mul_ne_zero hbQ (ne_of_gt hp2)) hbQ]
    linear_combination (-((a : ℚ) * b)) * hsum

/-- Denominator of the unified form is nonzero. -/
theorem scale_den_pos (b : ℕ) (e : ℤ) (hb : 1 ≤ b) :
    0 < b * 2 ^ (e - 52).toNat :=
  Nat.mul_pos hb (Nat.pos_pow_of_pos _ (by norm_num))

/-- Half-ulp error bound for `roundFrac`. -/
theorem roundFrac_err (a b : ℕ) (ha : 1 ≤ a) (hb : 1 ≤ b) :
    |fval (roundFrac a b) - (a : ℚ) / b| ≤ 2 ^ (binade a b - 53) := by
  have hne : ¬(a = 0 ∨ b = 0) := by omega
  set e := binade a b with hee
  set N := a * 2 ^ ((52 : ℤ) - e).toNat with hN
  set D := b * 2 ^ (e - 52).toNat with hD
  have hDpos : 0 < D := scale_den_pos b e hb
  have herr := rneDiv_err N D hDpos
  have hscale := scale_q a b e (by omega)
  rw [roundFrac_eq a b hne]
  show |((rneDiv N D : ℕ) : ℚ) * 2 ^ (e - 52) - (a : ℚ) / b| ≤ 2 ^ (e - 53)
  have hq : (a : ℚ) / b = ((N : ℚ) / D) * 2 ^ (e - 52) := by
    rw [hscale, mul_assoc, ← zpow_add₀ (by norm_num : (2 : ℚ) ≠ 0)]
    norm_num
  rw [hq, ← sub_mul, abs_mul, abs_of_pos (two_zpow_pos (e - 52))]
  calc |((rneDiv N D : ℕ) : ℚ) - (N : ℚ) / D| * 2 ^ (e - 52)
      ≤ (1 / 2) * 2 ^ (e - 52) := by
        have := two_zpow_pos (e - 52)
        nlinarith
    _ = 2 ^ (e - 53) := by
        rw [show (1 : ℚ) / 2 = 2 ^ (-1 : ℤ) by norm_num,
          ← zpow_add₀ (by norm_num : (2 : ℚ) ≠ 0)]
        congr 1
        omega

/-- The rounded mantissa lies in `[2^52, 2^53]`. -/
theorem roundFrac_m_bounds (a b : ℕ) (ha : 1 ≤ a) (hb : 1 ≤ b) :
    2 ^ 52 ≤ (roundFrac a b).m ∧ (roundFrac a b).m ≤ 2 ^ 53 := by
  have hne : ¬(a = 0 ∨ b = 0) := by omega
  set e := binade a b with hee
  set N := a * 2 ^ ((52 : ℤ) - e).toNat with hN
  set D := b * 2 ^ (e - 52).toNat with hD
  have hDpos : 0 < D := scale_den_pos b e hb
  have hDQ : (0 : ℚ) < (D : ℚ) := by exact_mod_cast hDpos
  have herr := rneDiv_err N D hDpos
  obtain ⟨hb1, hb2⟩ := binade_spec a b ha hb
  have hbQ : (0 : ℚ) < (b : ℚ) := by exact_mod_cast hb
  have hdiv1 : (2 : ℚ) ^ e ≤ (a : ℚ) / b := by
    rw [le_div_iff hbQ]; linarith
  have hdiv2 : (a : ℚ) / b < 2 ^ (e + 1) := by
    rw [div_lt_iff hbQ]; linarith
  have hscale := scale_q a b e (by omega)
  have hS1 : (2 : ℚ) ^ (52 : ℤ) ≤ (N : ℚ) / D := by
    rw [hscale]
    calc (2 : ℚ) ^ (52 : ℤ) = 2 ^ e * 2 ^ ((52 : ℤ) - e) := by
          rw [← zpow_add₀ (by norm_num : (2 : ℚ) ≠ 0)]; congr 1; omega
      _ ≤ (a : ℚ) / b * 2 ^ ((52 : ℤ) - e) := by
          have := two_zpow_pos ((52 : ℤ) - e)
          nlinarith
  have hS2 : (N : ℚ) / D < 2 ^ (53 : ℤ) := by
    rw [hscale]
    calc (a : ℚ) / b * 2 ^ ((52 : ℤ) - e) < 2 ^ (e + 1) * 2 ^ ((52 : ℤ) - e) := by
          have := two_zpow_pos ((52 : ℤ) - e)
          nlinarith
      _ = 2 ^ (53 : ℤ) := by
          rw [← zpow_add₀ (by norm_num : (2 : ℚ) ≠ 0)]; congr 1; omega
  rw [roundFrac_eq a b hne]
  show 2 ^ 52 ≤ rneDiv N D ∧ rneDiv N D ≤ 2 ^ 53
  have h52 : ((2 ^ 52 : ℕ) : ℚ) = (2 : ℚ) ^ (52 : ℤ) := two_zpow_nat 52
  have h53 : ((2 ^ 53 : ℕ) : ℚ) = (2 : ℚ) ^ (53 : ℤ) := two_zpow_nat 53
  constructor
  · by_contra hcon
    push_neg at hcon
    have : ((rneDiv N D : ℕ) : ℚ) ≤ ((2 ^ 52 - 1 : ℕ) : ℚ) := by
      exact_mod_cast by omega
    have habs := abs_le.mp herr
    push_cast at this
    nlinarith [hS1]
  · by_contra hcon
    push_neg at hcon
    have : ((2 ^ 53 + 1 : ℕ) : ℚ) ≤ ((rneDiv N D : ℕ) : ℚ) := by
      exact_mod_cast by omega
    have habs := abs_le.mp herr
    push_cast at this
    nlinarith [hS2]

/-- `roundFrac` is exact on representable values (`n * 2^t`, `n < 2^53`). -/
theorem roundFrac_exact (a b : ℕ) (ha : 1 ≤ a) (hb : 1 ≤ b) (n : ℕ) (t : ℤ)
    (hn : n < 2 ^ 53) (hv : (a : ℚ) / b = (n : ℚ) * 2 ^ t) :
    fval (roundFrac a b) = (a : ℚ) / b := by
  have hne : ¬(a = 0 ∨ b = 0) := by omega
  set e := binade a b with hee
  set N := a * 2 ^ ((52 : ℤ) - e).toNat with hN
  set D := b * 2 ^ (e - 52).toNat with hD
  have hDpos : 0 < D := scale_den_pos b e hb
  have hDQ : (0 : ℚ) < (D : ℚ) := by exact_mod_cast hDpos
  have hbQ : (0 : ℚ) < (b : ℚ) := by exact_mod_cast hb
  have haQ : (0 : ℚ) < (a : ℚ) := by exact_mod_cast ha
  have hscale := scale_q a b e (by omega)
  obtain ⟨hb1, hb2⟩ := binade_spec a b ha hb
  have hdiv1 : (2 : ℚ) ^ e ≤ (a : ℚ) / b := by
    rw [le_div_iff hbQ]; linarith
  have hS1 : (2 : ℚ) ^ (52 : ℤ) ≤ (N : ℚ) / D := by
    rw [hscale]
    calc (2 : ℚ) ^ (52 : ℤ) = 2 ^ e * 2 ^ ((52 : ℤ) - e) := by
          rw [← zpow_add₀ (by norm_num : (2 : ℚ) ≠ 0)]; congr 1; omega
      _ ≤ (a : ℚ) / b * 2 ^ ((52 : ℤ) - e) := by
          have := two_zpow_pos ((52 : ℤ) - e)
          nlinarith
  -- the scaled value is `n * 2^(t + 52 - e)`, and the shift is nonnegative
  have hn1 : 1 ≤ n := by
    rcases Nat.eq_zero_or_pos n with h0 | h1
    · exfalso
      rw [h0] at hv
      push_cast at hv
      rw [zero_mul] at hv
      have : (0 : ℚ) < (a : ℚ) / b := div_pos haQ hbQ
      rw [hv] at this
      exact lt_irrefl 0 this
    · exact h1
  obtain ⟨k, hk⟩ : ∃ kk : ℤ, kk = t + 52 - e := ⟨t + 52 - e, rfl⟩
  have hSval : (N : ℚ) / D = (n : ℚ) * 2 ^ k := by
    rw [hscale, hv, mul_assoc, ← zpow_add₀ (by norm_num : (2 : ℚ) ≠ 0)]
    congr 2
    omega
  have hkpos : 0 ≤ k := by
    by_contra hcon
    push_neg at hcon
    have hk1 : k ≤ -1 := by omega
    have hle : (2 : ℚ) ^ k ≤ 2 ^ (-1 : ℤ) :=
      zpow_le_zpow_right₀ (by norm_num) hk1
    have hnQ : (n : ℚ) < 2 ^ (53 : ℤ) := by
      calc (n : ℚ) < ((2 ^ 53 : ℕ) : ℚ) := by exact_mod_cast hn
        _ = 2 ^ ((53 : ℕ) : ℤ) := two_zpow_nat 53
        _ = 2 ^ (53 : ℤ) := by norm_num
    have : (N : ℚ) / D < 2 ^ (52 : ℤ) := by
      rw [hSval]
      calc (n : ℚ) * 2 ^ k ≤ (n : ℚ) * 2 ^ (-1 : ℤ) := by
            have : (0 : ℚ) ≤ (n : ℚ) := by positivity
            nlinarith [two_zpow_pos k]
        _ < 2 ^ (53 : ℤ) * 2 ^ (-1 : ℤ) := by
            have := two_zpow_pos (-1 : ℤ)
            nlinarith
        _ = 2 ^ (52 : ℤ) := by
            rw [← zpow_add₀ (by norm_num : (2 : ℚ) ≠ 0)]
            norm_num
    linarith
  -- hence `N / D` is the natural number `n * 2^k` and the division is exact
  have h2k : ((2 ^ k.toNat : ℕ) : ℚ) = (2 : ℚ) ^ k := by
    rw [two_zpow_nat, Int.toNat_of_nonneg hkpos]
  have hNat : (N : ℚ) = ((n * 2 ^ k.toNat * D : ℕ) : ℚ) := by
    rw [div_eq_iff (ne_of_gt hDQ)] at hSval
    push_cast [h2k]
    rw [hSval]
  have hNeq : N = n * 2 ^ k.toNat * D := by exact_mod_cast hNat
  have hdvd : D ∣ N := ⟨n * 2 ^ k.toNat, by rw [hNeq]; ring⟩
  rw [roundFrac_eq a b hne]
  show ((rneDiv N D : ℕ) : ℚ) * 2 ^ (e - 52) = (a : ℚ) / b
  rw [rneDiv_exact N D hDpos hdvd, hNeq]
  rw [Nat.mul_div_cancel _ hDpos]
  push_cast [h2k]
  rw [hv, mul_assoc, ← zpow_add₀ (by norm_num : (2 : ℚ) ≠ 0)]
  congr 2
  omega

/-! ### Derived float-model lemmas -/

theorem fval_mk (m : ℕ) (e : ℤ) : fval ⟨m, e⟩ = (m : ℚ) * 2 ^ e := rfl

/-- Upper characterization of natural division. -/
theorem nat_div_upper (a b : ℕ) (hb : 0 < b) : a < (a / b + 1) * b := by
  have h1 := Nat.div_add_mod a b
  have h2 := Nat.mod_lt a hb
  calc a = b * (a / b) + a % b := h1.symm
    _ < b * (a / b) + b := by omega
    _ = (a / b + 1) * b := by ring

theorem fval_nonneg (x : F) : 0 ≤ fval x := by
  unfold fval
  positivity

/-- Relative error form of the rounding bound. -/
theorem roundFrac_relerr (a b : ℕ) (ha : 1 ≤ a) (hb : 1 ≤ b) :
    |fval (roundFrac a b) - (a : ℚ) / b| ≤ (a : ℚ) / b * 2 ^ (-53 : ℤ) := by
  refine (roundFrac_err a b ha hb).trans ?_
  have hbQ : (0 : ℚ) < (b : ℚ) := by exact_mod_cast hb
  obtain ⟨h1, _⟩ := binade_spec a b ha hb
  have hdiv1 : (2 : ℚ) ^ binade a b ≤ (a : ℚ) / b := by
    rw [le_div_iff hbQ]; linarith
  calc (2 : ℚ) ^ (binade a b - 53) = 2 ^ binade a b * 2 ^ (-53 : ℤ) := by
        rw [← zpow_add₀ (by norm_num : (2 : ℚ) ≠ 0), Int.sub_eq_add_neg]
    _ ≤ (a : ℚ) / b * 2 ^ (-53 : ℤ) := by
        have := two_zpow_pos (-53 : ℤ)
        nlinarith

theorem toF_zero : fval (toF 0) = 0 := by
  unfold toF roundFrac
  simp [fval]

/-- `float64(n)` is exact whenever `n = c * 2^t` with `c < 2^53`. -/
theorem toF_exact (n : ℕ) (c t : ℕ) (hc : c < 2 ^ 53) (hrep : n = c * 2 ^ t)
    (hn : 1 ≤ n) : fval (toF n) = n := by
  unfold toF
  have hres := roundFrac_exact n 1 hn le_rfl c (t : ℤ) hc ?_
  · simpa using hres
  rw [hrep]
  push_cast
  rw [← zpow_natCast (2 : ℚ) t]
  norm_num

/-- `float64(n)` is exact for `n < 2^53`. -/
theorem toF_small (n : ℕ) (h : n < 2 ^ 53) : fval (toF n) = n := by
  rcases Nat.eq_zero_or_pos n with h0 | h1
  · rw [h0]; rw [toF_zero]; norm_num
  · exact toF_exact n n 0 h (by ring) h1

/-- Relative error of `float64(n)`. -/
theorem toF_err (n : ℕ) (h : 1 ≤ n) :
    |fval (toF n) - (n : ℚ)| ≤ (n : ℚ) * 2 ^ (-53 : ℤ) := by
  have := roundFrac_relerr n 1 h le_rfl
  simpa using this

theorem fval_fdiv_scale (x y : F) :
    fval (fdiv x y) = fval (roundFrac x.m y.m) * 2 ^ (x.e - y.e) := by
  unfold fdiv fval
  push_cast
  rw [mul_assoc, ← zpow_add₀ (by norm_num : (2 : ℚ) ≠ 0)]
  congr 2
  ring

theorem fval_quot (x y : F) (hy : 1 ≤ y.m) :
    fval x / fval y = (x.m : ℚ) / y.m * 2 ^ (x.e - y.e) := by
  unfold fval
  have h1 : ((y.m : ℚ)) ≠ 0 := by
    have : (0 : ℚ) < (y.m : ℚ) := by exact_mod_cast hy
    linarith
  have h2 : (2 : ℚ) ^ y.e ≠ 0 := ne_of_gt (two_zpow_pos _)
  rw [zpow_sub₀ (by norm_num : (2 : ℚ) ≠ 0), div_mul_div_comm]

/-- Division with both operands' mantissas nonzero: relative error `2^-53`. -/
theorem fdiv_relerr (x y : F) (hx : 1 ≤ x.m) (hy : 1 ≤ y.m) :
    |fval (fdiv x y) - fval x / fval y| ≤ fval x / fval y * 2 ^ (-53 : ℤ) := by
  have h := roundFrac_relerr x.m y.m hx hy
  have hp := two_zpow_pos (x.e - y.e)
  rw [fval_fdiv_scale, fval_quot x y hy]
  have habs : |fval (roundFrac x.m y.m) * 2 ^ (x.e - y.e)
      - (x.m : ℚ) / y.m * 2 ^ (x.e - y.e)|
      = |fval (roundFrac x.m y.m) - (x.m : ℚ) / y.m| * 2 ^ (x.e - y.e) := by
    rw [← sub_mul, abs_mul, abs_of_pos hp]
  rw [habs]
  calc |fval (roundFrac x.m y.m) - (x.m : ℚ) / y.m| * 2 ^ (x.e - y.e)
      ≤ (x.m : ℚ) / y.m * 2 ^ (-53 : ℤ) * 2 ^ (x.e - y.e) := by nlinarith
    _ = (x.m : ℚ) / y.m * 2 ^ (x.e - y.e) * 2 ^ (-53 : ℤ) := by ring

/-- Division is exact when the true quotient is representable. -/
theorem fdiv_exact (x y : F) (hx : 1 ≤ x.m) (hy : 1 ≤ y.m) (n : ℕ) (t : ℤ)
    (hn : n < 2 ^ 53) (hv : fval x / fval y = (n : ℚ) * 2 ^ t) :
    fval (fdiv x y) = fval x / fval y := by
  have hq := fval_quot x y hy
  have hv2 : (x.m : ℚ) / y.m = (n : ℚ) * 2 ^ (t - (x.e - y.e)) := by
    have hp := two_zpow_pos (x.e - y.e)
    have hmul : (x.m : ℚ) / y.m * 2 ^ (x.e - y.e) = (n : ℚ) * 2 ^ t := by
      rw [← hq, hv]
    have : (x.m : ℚ) / y.m = (n : ℚ) * 2 ^ t / 2 ^ (x.e - y.e) := by
      rw [← hmul, mul_div_assoc, div_self (ne_of_gt hp), mul_one]
    rw [this, mul_div_assoc, ← zpow_sub₀ (by norm_num : (2 : ℚ) ≠ 0)]
  have hex := roundFrac_exact x.m y.m hx hy n (t - (x.e - y.e)) hn hv2
  rw [fval_fdiv_scale, hex, hq]

/-- `mroundF` is `⌊v + 1/2⌋`: characterizing inequalities. -/
theorem mroundF_char (x : F) :
    (mroundF x : ℚ) ≤ fval x + 1 / 2 ∧ fval x + 1 / 2 < mroundF x + 1 := by
  unfold mroundF fval
  by_cases he : 0 ≤ x.e
  · rw [if_pos he]
    have hexact : ((x.m * 2 ^ x.e.toNat : ℕ) : ℚ) = (x.m : ℚ) * 2 ^ x.e := by
      push_cast
      rw [← zpow_natCast (2 : ℚ) x.e.toNat, Int.toNat_of_nonneg he]
    constructor
    · rw [hexact]; linarith
    · rw [hexact]; linarith
  · rw [if_neg he]
    set K := (-x.e).toNat with hK
    have hKpos : 0 < (2 : ℕ) ^ K := Nat.pos_pow_of_pos _ (by norm_num)
    have h2K : ((2 ^ K : ℕ) : ℚ) = (2 : ℚ) ^ K := by push_cast; ring
    have hzp : (2 : ℚ) ^ x.e = ((2 : ℚ) ^ K)⁻¹ := by
      rw [← zpow_natCast (2 : ℚ) K, hK, Int.toNat_of_nonneg (by omega), ←
        zpow_neg, neg_neg]
    have hKQ : (0 : ℚ) < (2 : ℚ) ^ K := by positivity
    set q := (2 * x.m + 2 ^ K) / (2 ^ K * 2) with hq
    have hchar1 : q * (2 ^ K * 2) ≤ 2 * x.m + 2 ^ K := Nat.div_mul_le_self _ _
    have hchar2 : 2 * x.m + 2 ^ K < (q + 1) * (2 ^ K * 2) :=
      nat_div_upper _ _ (by positivity)
    constructor
    · rw [hzp]
      have hQ : ((q * (2 ^ K * 2) : ℕ) : ℚ) ≤ ((2 * x.m + 2 ^ K : ℕ) : ℚ) := by
        exact_mod_cast hchar1
      push_cast [h2K] at hQ
      rw [← sub_nonneg]
      have hscaled : ((x.m : ℚ) * ((2 : ℚ) ^ K)⁻¹ + 1 / 2 - q) * ((2 : ℚ) ^ K * 2)
          = 2 * x.m + 2 ^ K - q * (2 ^ K * 2) := by
        field_simp
        ring
      nlinarith [hscaled]
    · rw [hzp]
      have hQ : ((2 * x.m + 2 ^ K : ℕ) : ℚ) < (((q + 1) * (2 ^ K * 2) : ℕ) : ℚ) := by
        exact_mod_cast hchar2
      push_cast [h2K] at hQ
      rw [← sub_pos]
      have hscaled : ((q : ℚ) + 1 - ((x.m : ℚ) * ((2 : ℚ) ^ K)⁻¹ + 1 / 2)) * ((2 : ℚ) ^ K * 2)
          = (q + 1) * (2 ^ K * 2) - (2 * x.m + 2 ^ K) := by
        field_simp
        ring
      nlinarith [hscaled]

/-- `ffloor` is `⌊v⌋`: characterizing inequalities. -/
theorem ffloor_char (x : F) :
    (ffloor x : ℚ) ≤ fval x ∧ fval x < ffloor x + 1 := by
  unfold ffloor fval
  by_cases he : 0 ≤ x.e
  · rw [if_pos he]
    have hexact : ((x.m * 2 ^ x.e.toNat : ℕ) : ℚ) = (x.m : ℚ) * 2 ^ x.e := by
      push_cast
      rw [← zpow_natCast (2 : ℚ) x.e.toNat, Int.toNat_of_nonneg he]
    constructor
    · rw [hexact]
    · rw [hexact]; linarith
  · rw [if_neg he]
    set K := (-x.e).toNat with hK
    have h2K : ((2 ^ K : ℕ) : ℚ) = (2 : ℚ) ^ K := by push_cast; ring
    have hzp : (2 : ℚ) ^ x.e = ((2 : ℚ) ^ K)⁻¹ := by
      rw [← zpow_natCast (2 : ℚ) K, hK, Int.toNat_of_nonneg (by omega), ←
        zpow_neg, neg_neg]
    have hKQ : (0 : ℚ) < (2 : ℚ) ^ K := by positivity
    set q := x.m / 2 ^ K with hq
    have hchar1 : q * 2 ^ K ≤ x.m := Nat.div_mul_le_self _ _
    have hchar2 : x.m < (q + 1) * 2 ^ K := nat_div_upper _ _ (by positivity)
    constructor
    · rw [hzp]
      have hQ : ((q * 2 ^ K : ℕ) : ℚ) ≤ (x.m : ℚ) := by exact_mod_cast hchar1
      push_cast [h2K] at hQ
      rw [← sub_nonneg]
      have hscaled : ((x.m : ℚ) * ((2 : ℚ) ^ K)⁻¹ - q) * (2 : ℚ) ^ K
          = (x.m : ℚ) - q * 2 ^ K := by
        field_simp
        all_goals ring
      nlinarith [hscaled]
    · rw [hzp]
      have hQ : (x.m : ℚ) < (((q + 1) * 2 ^ K : ℕ) : ℚ) := by exact_mod_cast hchar2
      push_cast [h2K] at hQ
      rw [← sub_pos]
      have hscaled : ((q : ℚ) + 1 - (x.m : ℚ) * ((2 : ℚ) ^ K)⁻¹) * (2 : ℚ) ^ K
          = (q + 1) * 2 ^ K - (x.m : ℚ) := by
        field_simp
        all_goals ring
      nlinarith [hscaled]

/-- Two naturals in the same unit-length window are equal. -/
theorem nat_window_eq (n m : ℕ) (q : ℚ) (h1 : (n : ℚ) ≤ q) (h2 : q < n + 1)
    (h3 : (m : ℚ) ≤ q) (h4 : q < m + 1) : n = m := by
  have hnm : (n : ℚ) < m + 1 := lt_of_le_of_lt h1 h4
  have hmn : (m : ℚ) < n + 1 := lt_of_le_of_lt h3 h2
  have h5 : n < m + 1 := by exact_mod_cast hnm
  have h6 : m < n + 1 := by exact_mod_cast hmn
  omega

/-- `ffloor` of an integral value is that integer. -/
theorem ffloor_of_int (x : F) (n : ℕ) (h : fval x = (n : ℚ)) : ffloor x = n := by
  obtain ⟨h1, h2⟩ := ffloor_char x
  refine nat_window_eq _ _ (fval x) h1 h2 ?_ ?_
  · rw [h]
  · rw [h]; linarith

/-- `fwhole` holds on integral values. -/
theorem fwhole_of_int (x : F) (n : ℕ) (h : fval x = (n : ℚ)) :
    fwhole x = true := by
  unfold fwhole
  by_cases he : 0 ≤ x.e
  · rw [if_pos he]
  · rw [if_neg he]
    unfold fval at h
    set K := (-x.e).toNat with hK
    have h2K : ((2 ^ K : ℕ) : ℚ) = (2 : ℚ) ^ K := by push_cast; ring
    have hzp : (2 : ℚ) ^ x.e = ((2 : ℚ) ^ K)⁻¹ := by
      rw [← zpow_natCast (2 : ℚ) K, hK, Int.toNat_of_nonneg (by omega), ←
        zpow_neg, neg_neg]
    have hKQ : (0 : ℚ) < (2 : ℚ) ^ K := by positivity
    rw [hzp] at h
    have hm : (x.m : ℚ) = (n : ℚ) * 2 ^ K := by
      field_simp at h
      linarith [h]
    have hmN : x.m = n * 2 ^ K := by
      have : (x.m : ℚ) = ((n * 2 ^ K : ℕ) : ℚ) := by push_cast [h2K]; linarith
      exact_mod_cast this
    simp [hmN, Nat.mul_mod_left]

/-- `fgeNat` decides `n ≤ v`. -/
theorem fgeNat_iff (x : F) (n : ℕ) :
    fgeNat x n = true ↔ (n : ℚ) ≤ fval x := by
  unfold fgeNat fval
  by_cases he : 0 ≤ x.e
  · rw [if_pos he]
    have hexact : ((x.m * 2 ^ x.e.toNat : ℕ) : ℚ) = (x.m : ℚ) * 2 ^ x.e := by
      push_cast
      rw [← zpow_natCast (2 : ℚ) x.e.toNat, Int.toNat_of_nonneg he]
    simp only [decide_eq_true_eq]
    constructor
    · intro h
      rw [← hexact]
      exact_mod_cast h
    · intro h
      rw [← hexact] at h
      exact_mod_cast h
  · rw [if_neg he]
    set K := (-x.e).toNat with hK
    have h2K : ((2 ^ K : ℕ) : ℚ) = (2 : ℚ) ^ K := by push_cast; ring
    have hzp : (2 : ℚ) ^ x.e = ((2 : ℚ) ^ K)⁻¹ := by
      rw [← zpow_natCast (2 : ℚ) K, hK, Int.toNat_of_nonneg (by omega), ←
        zpow_neg, neg_neg]
    have hKQ : (0 : ℚ) < (2 : ℚ) ^ K := by positivity
    rw [hzp]
    simp only [decide_eq_true_eq]
    constructor
    · intro h
      have hQ : ((n * 2 ^ K : ℕ) : ℚ) ≤ (x.m : ℚ) := by exact_mod_cast h
      push_cast [h2K] at hQ
      rw [← sub_nonneg]
      have : ((x.m : ℚ) * ((2 : ℚ) ^ K)⁻¹ - n) * (2 : ℚ) ^ K
          = (x.m : ℚ) - n * 2 ^ K := by
        field_simp
        all_goals ring
      nlinarith [this]
    · intro h
      have key : ((n * 2 ^ K : ℕ) : ℚ) ≤ (x.m : ℚ) := by
        push_cast [h2K]
        rw [← sub_nonneg]
        have : ((x.m : ℚ) * ((2 : ℚ) ^ K)⁻¹ - n) * (2 : ℚ) ^ K
            = (x.m : ℚ) - n * 2 ^ K := by
          field_simp
          all_goals ring
        nlinarith [this]
      exact_mod_cast key

/-- `fltOne` decides `v < 1`. -/
theorem fltOne_iff (x : F) : fltOne x = true ↔ fval x < 1 := by
  have h := fgeNat_iff x 1
  unfold fltOne
  unfold fgeNat at h
  by_cases he : 0 ≤ x.e
  · rw [if_pos he]
    rw [if_pos he] at h
    simp only [decide_eq_true_eq] at h ⊢
    constructor
    · intro h0
      by_contra hcon
      push_neg at hcon
      have := h.mpr (by exact_mod_cast hcon)
      omega
    · intro h1
      by_contra hcon
      have : 1 ≤ x.m * 2 ^ x.e.toNat := by omega
      have := h.mp (by exact_mod_cast this)
      push_cast at this
      linarith
  · rw [if_neg he]
    rw [if_neg he] at h
    simp only [decide_eq_true_eq] at h ⊢
    constructor
    · intro h0
      by_contra hcon
      push_neg at hcon
      have := h.mpr hcon
      omega
    · intro h1
      by_contra hcon
      have hx : 1 * 2 ^ (-x.e).toNat ≤ x.m := by omega
      have h2 := h.mp hx
      push_cast at h2
      linarith

/-! ### Unit selection -/

theorem find?_cons_ite (p : ℕ → Bool) (a : ℕ) (l : List ℕ) :
    List.find? p (a :: l) = if p a = true then some a else List.find? p l := by
  rw [List.find?_cons]
  cases hpa : p a <;> simp [hpa]

/-- The unit-selection loop as an explicit descending conditional chain. -/
theorem units_find_eq (s : ℕ) :
    units.find? (fun u => decide (u ≤ s)) =
      if Pebibyte ≤ s then some Pebibyte
      else if Petabyte ≤ s then some Petabyte
      else if Tebibyte ≤ s then some Tebibyte
      else if Terabyte ≤ s then some Terabyte
      else if Gibibyte ≤ s then some Gibibyte
      else if Gigabyte ≤ s then some Gigabyte
      else if Mebibyte ≤ s then some Mebibyte
      else if Megabyte ≤ s then some Megabyte
      else if Kibibyte ≤ s then some Kibibyte
      else if Kilobyte ≤ s then some Kilobyte
      else none := by
  unfold units
  simp only [find?_cons_ite, List.find?_nil, decide_eq_true_eq]

/-! ### Claim theorems (first group) -/

/-- C6: `Floor` returns `(s / u) * u` for the first unit `u ≤ s` in the
descending list, in pure integer arithmetic, and returns `s` unchanged
exactly when `s` is smaller than every listed unit, which happens exactly
when `s < 1000`. -/
theorem floor_matches_spec :
    (∀ s : ℕ, Floor s = floorSpec s) ∧
    (∀ s : ℕ, units.find? (fun u => decide (u ≤ s)) = none ↔ s < 1000) := by
  constructor
  · intro s
    unfold Floor floorSpec units
    simp only [find?_cons_ite, List.find?_nil, decide_eq_true_eq,
      apply_ite (fun o : Option ℕ => (match o with | some u => s / u * u | none => s))]
  · intro s
    rw [units_find_eq]
    split_ifs <;>
      simp_all [Pebibyte, Petabyte, Tebibyte, Terabyte, Gibibyte, Gigabyte,
        Mebibyte, Megabyte, Kibibyte, Kilobyte, Byte] <;> omega

/-- C9: at the top of the `uint64` range `Round` wraps modulo `2^64`:
`float64(2^64 - 1)` rounds up to `2^64` (mantissa `2^53`, exponent 11),
the quotient by Pebibyte rounds to 16384, and `16384 * Pebibyte` reduces
to 0 in the `uint64` result. -/
theorem round_wraparound :
    toF (2 ^ 64 - 1) = ⟨2 ^ 53, 11⟩ ∧
    mroundF (fdiv (toF (2 ^ 64 - 1)) (toF Pebibyte)) = 16384 ∧
    Round (2 ^ 64 - 1) = 0 := by
  refine ⟨by decide, by decide, by decide⟩

/-- C1 (counterexample): the round-trip fails at `Size 1025`, which
formats as `"1.00KiB"` and parses back to 1024. -/
theorem roundtrip_counterexample :
    sizeStringS 1025 = "1.00KiB" ∧
    ParseS (sizeStringS 1025) = .ok (some 1024) ∧ (1024 : ℕ) ≠ 1025 := by
  refine ⟨by decide, by decide, by decide⟩

/-- C1 (amended): the round-trip `Parse (s.String()) = s` holds for each
of the eleven unit constants (and for the representative values the
library's tests use), though not for every `Size`. -/
theorem roundtrip_units :
    ParseS (sizeStringS Byte) = .ok (some Byte) ∧
    ParseS (sizeStringS Kilobyte) = .ok (some Kilobyte) ∧
    ParseS (sizeStringS Megabyte) = .ok (some Megabyte) ∧
    ParseS (sizeStringS Gigabyte) = .ok (some Gigabyte) ∧
    ParseS (sizeStringS Terabyte) = .ok (some Terabyte) ∧
    ParseS (sizeStringS Petabyte) = .ok (some Petabyte) ∧
    ParseS (sizeStringS Kibibyte) = .ok (some Kibibyte) ∧
    ParseS (sizeStringS Mebibyte) = .ok (some Mebibyte) ∧
    ParseS (sizeStringS Gibibyte) = .ok (some Gibibyte) ∧
    ParseS (sizeStringS Tebibyte) = .ok (some Tebibyte) ∧
    ParseS (sizeStringS Pebibyte) = .ok (some Pebibyte) ∧
    ParseS (sizeStringS 0) = .ok (some 0) ∧
    ParseS (sizeStringS 1023) = .ok (some 1023) := by
  refine ⟨by decide, by decide, by decide, by decide, by decide, by decide,
    by decide, by decide, by decide, by decide, by decide, by decide, by decide⟩

/-- C2: `Size.String` agrees with the spec's reference formatter: zero
gives `"0B"`; otherwise the ten interleaved conditions are tried in the
spec's order (per tier: exact multiple of the decimal unit first, then
`≥` the binary unit), and the selected unit's floating-point magnitude is
rendered as an integer when whole and with exactly two decimals
otherwise. -/
theorem string_matches_spec : ∀ s : ℕ, sizeString s = specString s :=
  fun _ => rfl

/-- C5 (counterexample): `Round` does not always return the nearest
multiple: for `s = 2^53 + 2^49 - 1` the conversion `float64(s)` rounds up
to `2^53 + 2^49` before the quotient is formed, so `Round` returns
`9 * Pebibyte` although `8 * Pebibyte` is strictly nearer. -/
theorem round_counterexample :
    Round (2 ^ 53 + 2 ^ 49 - 1) = 9 * Pebibyte ∧
    (2 ^ 53 + 2 ^ 49 - 1) - 8 * Pebibyte < 9 * Pebibyte - (2 ^ 53 + 2 ^ 49 - 1) := by
  refine ⟨by decide, by decide⟩

/-- C4 (counterexample): `Parse` of a bare number is not the truncation
of the decimal value the string denotes: `"2.9999999999999999999"`
denotes a value that truncates to 2, but the nearest `float64` is exactly
3, so `Parse` returns 3. -/
theorem parse_truncation_counterexample :
    ParseS "2.9999999999999999999" = .ok (some 3) ∧
    (29999999999999999999 : ℕ) / 10 ^ 19 = 2 := by
  refine ⟨by decide, by decide⟩

/-! ### Infrastructure for the Floor/Round/String analyses -/

theorem Kilobyte_lit : Kilobyte = 1000 := rfl
theorem Megabyte_lit : Megabyte = 1000000 := rfl
theorem Gigabyte_lit : Gigabyte = 1000000000 := rfl
theorem Terabyte_lit : Terabyte = 1000000000000 := rfl
theorem Petabyte_lit : Petabyte = 1000000000000000 := rfl
theorem Kibibyte_lit : Kibibyte = 1024 := rfl
theorem Mebibyte_lit : Mebibyte = 1048576 := rfl
theorem Gibibyte_lit : Gibibyte = 1073741824 := rfl
theorem Tebibyte_lit : Tebibyte = 1099511627776 := rfl
theorem Pebibyte_lit : Pebibyte = 1125899906842624 := rfl

theorem toF_m_pos (n : ℕ) (h : 1 ≤ n) : 1 ≤ (toF n).m := by
  have := (roundFrac_m_bounds n 1 h le_rfl).1
  unfold toF
  calc 1 ≤ 2 ^ 52 := by norm_num
    _ ≤ (roundFrac n 1).m := this

/-- `mroundF` from a window around `v + 1/2`. -/
theorem mround_window (x : F) (n : ℕ) (h1 : (n : ℚ) ≤ fval x + 1 / 2)
    (h2 : fval x + 1 / 2 < n + 1) : mroundF x = n := by
  obtain ⟨c1, c2⟩ := mroundF_char x
  exact nat_window_eq _ _ (fval x + 1 / 2) c1 c2 h1 h2

/-- The integer half-up formula brackets `s/u + 1/2`. -/
theorem halfup_div_char (s u : ℕ) (hu : 0 < u) :
    (((2 * s + u) / (2 * u) : ℕ) : ℚ) ≤ (s : ℚ) / u + 1 / 2 ∧
    (s : ℚ) / u + 1 / 2 < ((2 * s + u) / (2 * u) : ℕ) + 1 := by
  have huQ : (0 : ℚ) < (u : ℚ) := by exact_mod_cast hu
  have h2u : 0 < 2 * u := by omega
  set q := (2 * s + u) / (2 * u) with hq
  have hc1 : q * (2 * u) ≤ 2 * s + u := Nat.div_mul_le_self _ _
  have hc2 : 2 * s + u < (q + 1) * (2 * u) := nat_div_upper _ _ h2u
  have hval : (s : ℚ) / u + 1 / 2 = ((2 * s + u : ℕ) : ℚ) / (2 * u) := by
    push_cast
    field_simp
    ring
  have h2uQ : (0 : ℚ) < 2 * (u : ℚ) := by linarith
  constructor
  · rw [hval, le_div_iff (by push_cast; linarith)]
    have : ((q * (2 * u) : ℕ) : ℚ) ≤ ((2 * s + u : ℕ) : ℚ) := by exact_mod_cast hc1
    push_cast at this ⊢
    linarith
  · rw [hval, div_lt_iff (by push_cast; linarith)]
    have : ((2 * s + u : ℕ) : ℚ) < (((q + 1) * (2 * u) : ℕ) : ℚ) := by
      exact_mod_cast hc2
    push_cast at this ⊢
    linarith

/-- Exactness of the quotient `float64(m)/float64(u)` when `m = k * u` is
representable and the quotient `k` fits in 53 bits. -/
theorem quotient_exact (m u c t k : ℕ) (hm1 : 1 ≤ m) (hu1 : 1 ≤ u)
    (hu53 : u < 2 ^ 53) (hrep : m = c * 2 ^ t) (hc : c < 2 ^ 53)
    (hk : k < 2 ^ 53) (hmk : m = k * u) :
    fval (fdiv (toF m) (toF u)) = (k : ℚ) := by
  have htm : fval (toF m) = (m : ℚ) := toF_exact m c t hc hrep hm1
  have htu : fval (toF u) = (u : ℚ) := toF_small u hu53
  have huQ : (0 : ℚ) < (u : ℚ) := by exact_mod_cast hu1
  have hquot : fval (toF m) / fval (toF u) = (k : ℚ) := by
    rw [htm, htu, hmk]
    push_cast
    rw [mul_div_assoc, div_self (ne_of_gt huQ), mul_one]
  have hex := fdiv_exact (toF m) (toF u) (toF_m_pos m hm1) (toF_m_pos u hu1)
    k 0 hk (by rw [hquot]; norm_num)
  rw [hex, hquot]

/-- Divisibility transfer: for `t ≤ j`, `10^t ∣ k * 2^j ↔ 5^t ∣ k`. -/
theorem dec_dvd_iff (k j t : ℕ) (hjt : t ≤ j) :
    10 ^ t ∣ k * 2 ^ j ↔ 5 ^ t ∣ k := by
  have hsplit : k * 2 ^ j = k * 2 ^ (j - t) * 2 ^ t := by
    rw [mul_assoc, ← pow_add, Nat.sub_add_cancel hjt]
  have h10 : (10 : ℕ) ^ t = 2 ^ t * 5 ^ t := by
    rw [← mul_pow]
    norm_num
  constructor
  · intro hdvd
    obtain ⟨c, hc⟩ := hdvd
    rw [hsplit, h10] at hc
    have h2t : 0 < (2 : ℕ) ^ t := Nat.pos_pow_of_pos _ (by norm_num)
    have hcc : k * 2 ^ (j - t) = 5 ^ t * c := by
      have hmul : 2 ^ t * (k * 2 ^ (j - t)) = 2 ^ t * (5 ^ t * c) := by
        calc 2 ^ t * (k * 2 ^ (j - t)) = k * 2 ^ (j - t) * 2 ^ t := by ring
          _ = 2 ^ t * 5 ^ t * c := hc
          _ = 2 ^ t * (5 ^ t * c) := by ring
      exact Nat.eq_of_mul_eq_mul_left h2t hmul
    have hdvd2 : 5 ^ t ∣ k * 2 ^ (j - t) := ⟨c, hcc⟩
    have hcop : Nat.Coprime (5 ^ t) (2 ^ (j - t)) := Nat.Coprime.pow _ _ (by norm_num)
    exact hcop.dvd_of_dvd_mul_right hdvd2
  · intro hdvd
    obtain ⟨c, hc⟩ := hdvd
    refine ⟨c * 2 ^ (j - t), ?_⟩
    rw [hsplit, hc, h10]
    ring

/-- No decimal digit renders as `'.'`. -/
theorem digitChar_ne_dot (n : ℕ) : Nat.digitChar n ≠ '.' := by
  rcases Nat.lt_or_ge n 16 with h | h
  · interval_cases n <;> decide
  · unfold Nat.digitChar
    repeat rw [if_neg (by omega)]
    decide

theorem natStrAux_no_dot (f n : ℕ) : '.' ∉ natStrAux f n := by
  induction f generalizing n with
  | zero => simp [natStrAux]
  | succ f ih =>
    unfold natStrAux
    by_cases h : n < 10
    · simp only [if_pos h, List.mem_singleton]
      exact fun hc => digitChar_ne_dot n hc.symm
    · simp only [if_neg h, List.mem_append, List.mem_singleton]
      rintro (hc | hc)
      · exact ih (n / 10) hc
      · exact digitChar_ne_dot (n % 10) hc.symm

theorem natStr_no_dot (n : ℕ) : '.' ∉ natStr n := natStrAux_no_dot _ _

/-- A whole magnitude formats without a decimal point. -/
theorem format_int_noDot (x : F) (k : ℕ) (hx : fval x = (k : ℚ))
    (suf : List Char) (hsuf : '.' ∉ suf) : '.' ∉ format x suf := by
  unfold format
  rw [fwhole_of_int x k hx, if_pos rfl]
  rw [List.mem_append]
  rintro (hc | hc)
  · exact natStr_no_dot _ hc
  · exact hsuf hc

/-- The relative rounding error constant as a rational literal. -/
theorem eps53 : (2 : ℚ) ^ (-53 : ℤ) = 1 / 9007199254740992 := by norm_num

/-- Decimal magnitudes below `B ≤ 4u/3` round to exactly one unit. -/
theorem mround_one_decimal (s u B : ℕ) (hu1 : 1 ≤ u) (hu53 : u < 2 ^ 53)
    (hus : u ≤ s) (hs53 : s < 2 ^ 53) (hsB : s < B) (hB : 3 * B ≤ 4 * u) :
    mroundF (fdiv (toF s) (toF u)) = 1 := by
  have htm : fval (toF s) = (s : ℚ) := toF_small s hs53
  have htu : fval (toF u) = (u : ℚ) := toF_small u hu53
  have huQ : (0 : ℚ) < (u : ℚ) := by exact_mod_cast hu1
  have herr := fdiv_relerr (toF s) (toF u) (toF_m_pos s (by omega)) (toF_m_pos u hu1)
  rw [htm, htu, eps53] at herr
  have hq1 : (1 : ℚ) ≤ (s : ℚ) / u := by
    rw [le_div_iff huQ]
    have : ((u : ℕ) : ℚ) ≤ ((s : ℕ) : ℚ) := by exact_mod_cast hus
    linarith
  have hq2 : (s : ℚ) / u < 4 / 3 := by
    rw [div_lt_iff huQ]
    have hsQ : (s : ℚ) < (B : ℚ) := by exact_mod_cast hsB
    have hBQ : 3 * (B : ℚ) ≤ 4 * u := by exact_mod_cast hB
    linarith
  obtain ⟨habs1, habs2⟩ := abs_le.mp herr
  apply mround_window
  · push_cast
    linarith
  · push_cast
    linarith

/-- With `s, u < 2^53` and a representable true quotient, the rounded
quotient is the exact integer half-up formula. -/
theorem mround_halfup_exact (s u c t : ℕ) (hs1 : 1 ≤ s) (hs : s < 2 ^ 53)
    (hu1 : 1 ≤ u) (hu53 : u < 2 ^ 53) (hquot : (s : ℚ) / u = (c : ℚ) * 2 ^ (t : ℤ) ∨
      ∃ tn : ℕ, (s : ℚ) / u = (c : ℚ) * ((2 : ℚ) ^ (tn : ℕ))⁻¹) (hc : c < 2 ^ 53) :
    mroundF (fdiv (toF s) (toF u)) = (2 * s + u) / (2 * u) := by
  have htm : fval (toF s) = (s : ℚ) := toF_small s hs
  have htu : fval (toF u) = (u : ℚ) := toF_small u hu53
  have hqrep : ∃ tt : ℤ, (s : ℚ) / u = (c : ℚ) * 2 ^ tt := by
    rcases hquot with h | ⟨tn, h⟩
    · exact ⟨t, h⟩
    · refine ⟨-(tn : ℤ), ?_⟩
      rw [h, zpow_neg, zpow_natCast]
  obtain ⟨tt, hqr⟩ := hqrep
  have hex := fdiv_exact (toF s) (toF u) (toF_m_pos s hs1) (toF_m_pos u hu1)
    c tt hc (by rw [htm, htu]; exact hqr)
  rw [htm, htu] at hex
  obtain ⟨hw1, hw2⟩ := halfup_div_char s u hu1
  apply mround_window
  · rw [hex]; exact hw1
  · rw [hex]; exact hw2

/-- Bounds on the rounded Pebibyte quotient over the whole `uint64`
range (where `float64(s)` itself is inexact). -/
theorem mround_pi_range (s : ℕ) (h1 : Pebibyte ≤ s) (h2 : s < 2 ^ 64) :
    1 ≤ mroundF (fdiv (toF s) (toF Pebibyte)) ∧
    mroundF (fdiv (toF s) (toF Pebibyte)) ≤ 16384 := by
  have hs1 : 1 ≤ s := by
    rw [Pebibyte_lit] at h1
    omega
  have htu : fval (toF Pebibyte) = (Pebibyte : ℚ) := by
    refine toF_small Pebibyte ?_
    rw [Pebibyte_lit]
    norm_num
  have htoF := toF_err s hs1
  have herr := fdiv_relerr (toF s) (toF Pebibyte) (toF_m_pos s hs1)
    (toF_m_pos Pebibyte (by rw [Pebibyte_lit]; norm_num))
  rw [htu] at herr
  rw [eps53] at htoF herr
  have hP : ((Pebibyte : ℕ) : ℚ) = 1125899906842624 := by
    rw [Pebibyte_lit]
    norm_num
  rw [hP] at herr
  obtain ⟨ht1, ht2⟩ := abs_le.mp htoF
  obtain ⟨hd1, hd2⟩ := abs_le.mp herr
  set X := fval (toF s) with hX
  set Q := fval (fdiv (toF s) (toF Pebibyte)) with hQ
  have hspos : (0 : ℚ) ≤ (s : ℚ) := by positivity
  have hsQ1 : (1125899906842624 : ℚ) ≤ (s : ℚ) := by
    rw [Pebibyte_lit] at h1
    exact_mod_cast h1
  have hsQ2 : (s : ℚ) < 18446744073709551616 := by
    have h64 : ((s : ℕ) : ℚ) < ((2 ^ 64 : ℕ) : ℚ) := by exact_mod_cast h2
    calc (s : ℚ) < ((2 ^ 64 : ℕ) : ℚ) := h64
      _ = 18446744073709551616 := by norm_num
  have hX1 : (s : ℚ) * (1 - 1 / 1048576) ≤ X := by linarith
  have hX2 : X ≤ (s : ℚ) * (1 + 1 / 1048576) := by linarith
  have hXpos : (0 : ℚ) ≤ X := by linarith
  have hXD1 : X / 1125899906842624 * (1 - 1 / 1048576) ≤ Q := by linarith
  have hXD2 : Q ≤ X / 1125899906842624 * (1 + 1 / 1048576) := by linarith
  have hXdivlow : (1 - 1 / 1048576) ≤ X / 1125899906842624 := by
    rw [le_div_iff (by norm_num : (0 : ℚ) < 1125899906842624)]
    linarith
  have hXdivhigh : X / 1125899906842624 ≤ 16384 * (1 + 1 / 1048576) := by
    rw [div_le_iff (by norm_num : (0 : ℚ) < 1125899906842624)]
    linarith
  obtain ⟨c1, c2⟩ := mroundF_char (fdiv (toF s) (toF Pebibyte))
  rw [← hQ] at c1 c2
  have hXdivpos : (0 : ℚ) ≤ X / 1125899906842624 := by positivity
  have hlow : (1 : ℚ) ≤ Q + 1 / 2 := by nlinarith
  have hhigh : Q + 1 / 2 < 16385 := by nlinarith
  constructor
  · by_contra hcon
    push_neg at hcon
    have h0 : mroundF (fdiv (toF s) (toF Pebibyte)) = 0 := by omega
    rw [h0] at c2
    push_cast at c2
    linarith
  · by_contra hcon
    push_neg at hcon
    have hc16 : (16385 : ℚ) ≤ (mroundF (fdiv (toF s) (toF Pebibyte)) : ℚ) := by
      exact_mod_cast hcon
    linarith

/-! ### `sizeString` of unit multiples has no decimal point -/

theorem noDot_small (m : ℕ) (hm : m < 1000) : '.' ∉ sizeString m := by
  by_cases h0 : m = 0
  · rw [h0]
    decide
  · unfold sizeString
    rw [if_neg h0]
    rw [if_neg (by rw [Petabyte_lit, Nat.mod_eq_of_lt (by omega)]; omega)]
    rw [if_neg (by rw [Pebibyte_lit]; omega)]
    rw [if_neg (by rw [Terabyte_lit, Nat.mod_eq_of_lt (by omega)]; omega)]
    rw [if_neg (by rw [Tebibyte_lit]; omega)]
    rw [if_neg (by rw [Gigabyte_lit, Nat.mod_eq_of_lt (by omega)]; omega)]
    rw [if_neg (by rw [Gibibyte_lit]; omega)]
    rw [if_neg (by rw [Megabyte_lit, Nat.mod_eq_of_lt (by omega)]; omega)]
    rw [if_neg (by rw [Mebibyte_lit]; omega)]
    rw [if_neg (by rw [Kilobyte_lit, Nat.mod_eq_of_lt (by omega)]; omega)]
    rw [if_neg (by rw [Kibibyte_lit]; omega)]
    rw [List.mem_append]
    rintro (hc | hc)
    · exact natStr_no_dot m hc
    · revert hc
      decide

theorem noDot_pi (k : ℕ) (h1 : 1 ≤ k) (h2 : k ≤ 16383) :
    '.' ∉ sizeString (k * Pebibyte) := by
  have hdvd : ¬ (1000000000000000 ∣ k * 1125899906842624) := by
    have hiff := dec_dvd_iff k 50 15 (by norm_num)
    norm_num at hiff
    rw [hiff]
    rintro ⟨c, rfl⟩
    omega
  unfold sizeString
  rw [if_neg (by rw [Pebibyte_lit]; omega)]
  rw [if_neg (by
    rw [Pebibyte_lit, Petabyte_lit]
    intro hmod
    exact hdvd (Nat.dvd_of_mod_eq_zero hmod))]
  rw [if_pos (by rw [Pebibyte_lit]; omega)]
  refine format_int_noDot _ k ?_ _ (by decide)
  exact quotient_exact (k * Pebibyte) Pebibyte k 50 k (by rw [Pebibyte_lit]; omega)
    (by rw [Pebibyte_lit]; omega) (by rw [Pebibyte_lit]; norm_num)
    (by rw [Pebibyte_lit]; norm_num) (by omega) (by omega) rfl

theorem noDot_ti (k : ℕ) (h1 : 1 ≤ k) (h2 : k ≤ 909) :
    '.' ∉ sizeString (k * Tebibyte) := by
  have hm : k * Tebibyte < 1000000000000000 := by rw [Tebibyte_lit]; omega
  have hdvd : ¬ (1000000000000 ∣ k * 1099511627776) := by
    have hiff := dec_dvd_iff k 40 12 (by norm_num)
    norm_num at hiff
    rw [hiff]
    rintro ⟨c, rfl⟩
    omega
  unfold sizeString
  rw [if_neg (by rw [Tebibyte_lit]; omega)]
  rw [if_neg (by
    rw [Petabyte_lit, Nat.mod_eq_of_lt hm]
    rw [Tebibyte_lit]
    omega)]
  rw [if_neg (by rw [Pebibyte_lit, Tebibyte_lit]; omega)]
  rw [if_neg (by
    rw [Tebibyte_lit, Terabyte_lit]
    intro hmod
    exact hdvd (Nat.dvd_of_mod_eq_zero hmod))]
  rw [if_pos (by rw [Tebibyte_lit]; omega)]
  refine format_int_noDot _ k ?_ _ (by decide)
  exact quotient_exact (k * Tebibyte) Tebibyte k 40 k (by rw [Tebibyte_lit]; omega)
    (by rw [Tebibyte_lit]; omega) (by rw [Tebibyte_lit]; norm_num)
    (by rw [Tebibyte_lit]; norm_num) (by omega) (by omega) rfl

theorem noDot_gi (k : ℕ) (h1 : 1 ≤ k) (h2 : k ≤ 931) :
    '.' ∉ sizeString (k * Gibibyte) := by
  have hm : k * Gibibyte < 1000000000000 := by rw [Gibibyte_lit]; omega
  have hdvd : ¬ (1000000000 ∣ k * 1073741824) := by
    have hiff := dec_dvd_iff k 30 9 (by norm_num)
    norm_num at hiff
    rw [hiff]
    rintro ⟨c, rfl⟩
    omega
  unfold sizeString
  rw [if_neg (by rw [Gibibyte_lit]; omega)]
  rw [if_neg (by
    rw [Petabyte_lit, Nat.mod_eq_of_lt (by rw [Gibibyte_lit]; omega)]
    rw [Gibibyte_lit]
    omega)]
  rw [if_neg (by rw [Pebibyte_lit, Gibibyte_lit]; omega)]
  rw [if_neg (by
    rw [Terabyte_lit, Nat.mod_eq_of_lt hm]
    rw [Gibibyte_lit]
    omega)]
  rw [if_neg (by rw [Tebibyte_lit, Gibibyte_lit]; omega)]
  rw [if_neg (by
    rw [Gibibyte_lit, Gigabyte_lit]
    intro hmod
    exact hdvd (Nat.dvd_of_mod_eq_zero hmod))]
  rw [if_pos (by rw [Gibibyte_lit]; omega)]
  refine format_int_noDot _ k ?_ _ (by decide)
  exact quotient_exact (k * Gibibyte) Gibibyte k 30 k (by rw [Gibibyte_lit]; omega)
    (by rw [Gibibyte_lit]; omega) (by rw [Gibibyte_lit]; norm_num)
    (by rw [Gibibyte_lit]; norm_num) (by omega) (by omega) rfl

theorem noDot_mi (k : ℕ) (h1 : 1 ≤ k) (h2 : k ≤ 954) :
    '.' ∉ sizeString (k * Mebibyte) := by
  have hdvd9 : ¬ (1000000000 ∣ k * 1048576) := by
    have hiff := dec_dvd_iff k 20 9 (by norm_num)
    norm_num at hiff
    rw [hiff]
    rintro ⟨c, rfl⟩
    omega
  have hdvd6 : ¬ (1000000 ∣ k * 1048576) := by
    have hiff := dec_dvd_iff k 20 6 (by norm_num)
    norm_num at hiff
    rw [hiff]
    rintro ⟨c, rfl⟩
    omega
  unfold sizeString
  rw [if_neg (by rw [Mebibyte_lit]; omega)]
  rw [if_neg (by
    rw [Petabyte_lit, Nat.mod_eq_of_lt (by rw [Mebibyte_lit]; omega)]
    rw [Mebibyte_lit]
    omega)]
  rw [if_neg (by rw [Pebibyte_lit, Mebibyte_lit]; omega)]
  rw [if_neg (by
    rw [Terabyte_lit, Nat.mod_eq_of_lt (by rw [Mebibyte_lit]; omega)]
    rw [Mebibyte_lit]
    omega)]
  rw [if_neg (by rw [Tebibyte_lit, Mebibyte_lit]; omega)]
  rw [if_neg (by
    rw [Mebibyte_lit, Gigabyte_lit]
    intro hmod
    exact hdvd9 (Nat.dvd_of_mod_eq_zero hmod))]
  rw [if_neg (by rw [Gibibyte_lit, Mebibyte_lit]; omega)]
  rw [if_neg (by
    rw [Mebibyte_lit, Megabyte_lit]
    intro hmod
    exact hdvd6 (Nat.dvd_of_mod_eq_zero hmod))]
  rw [if_pos (by rw [Mebibyte_lit]; omega)]
  refine format_int_noDot _ k ?_ _ (by decide)
  exact quotient_exact (k * Mebibyte) Mebibyte k 20 k (by rw [Mebibyte_lit]; omega)
    (by rw [Mebibyte_lit]; omega) (by rw [Mebibyte_lit]; norm_num)
    (by rw [Mebibyte_lit]; norm_num) (by omega) (by omega) rfl

theorem noDot_ki (k : ℕ) (h1 : 1 ≤ k) (h2 : k ≤ 977) :
    '.' ∉ sizeString (k * Kibibyte) := by
  have hdvd6 : ¬ (1000000 ∣ k * 1024) := by
    have hiff := dec_dvd_iff k 10 6 (by norm_num)
    norm_num at hiff
    rw [hiff]
    rintro ⟨c, rfl⟩
    omega
  unfold sizeString
  rw [if_neg (by rw [Kibibyte_lit]; omega)]
  rw [if_neg (by
    rw [Petabyte_lit, Nat.mod_eq_of_lt (by rw [Kibibyte_lit]; omega)]
    rw [Kibibyte_lit]
    omega)]
  rw [if_neg (by rw [Pebibyte_lit, Kibibyte_lit]; omega)]
  rw [if_neg (by
    rw [Terabyte_lit, Nat.mod_eq_of_lt (by rw [Kibibyte_lit]; omega)]
    rw [Kibibyte_lit]
    omega)]
  rw [if_neg (by rw [Tebibyte_lit, Kibibyte_lit]; omega)]
  rw [if_neg (by
    rw [Gigabyte_lit, Nat.mod_eq_of_lt (by rw [Kibibyte_lit]; omega)]
    rw [Kibibyte_lit]
    omega)]
  rw [if_neg (by rw [Gibibyte_lit, Kibibyte_lit]; omega)]
  rw [if_neg (by
    rw [Kibibyte_lit, Megabyte_lit]
    intro hmod
    exact hdvd6 (Nat.dvd_of_mod_eq_zero hmod))]
  rw [if_neg (by rw [Mebibyte_lit, Kibibyte_lit]; omega)]
  by_cases h125 : 125 ∣ k
  · obtain ⟨c, rfl⟩ := h125
    rw [if_pos (by rw [Kilobyte_lit, Kibibyte_lit]; omega)]
    refine format_int_noDot _ (128 * c) ?_ _ (by decide)
    exact quotient_exact (125 * c * Kibibyte) Kilobyte (8 * (125 * c)) 7 (128 * c)
      (by rw [Kibibyte_lit]; omega)
      (by rw [Kilobyte_lit]; omega) (by rw [Kilobyte_lit]; norm_num)
      (by rw [Kibibyte_lit]; ring) (by omega) (by omega)
      (by rw [Kilobyte_lit, Kibibyte_lit]; ring)
  · have hdvd3 : ¬ (1000 ∣ k * 1024) := by
      have hiff := dec_dvd_iff k 10 3 (by norm_num)
      norm_num at hiff
      rw [hiff]
      rintro ⟨c, rfl⟩
      exact h125 ⟨c, rfl⟩
    rw [if_neg (by
      rw [Kibibyte_lit, Kilobyte_lit]
      intro hmod
      exact hdvd3 (Nat.dvd_of_mod_eq_zero hmod))]
    rw [if_pos (by rw [Kibibyte_lit]; omega)]
    refine format_int_noDot _ k ?_ _ (by decide)
    exact quotient_exact (k * Kibibyte) Kibibyte k 10 k (by rw [Kibibyte_lit]; omega)
      (by rw [Kibibyte_lit]; omega) (by rw [Kibibyte_lit]; norm_num)
      (by rw [Kibibyte_lit]; norm_num) (by omega) (by omega) rfl

theorem Floor_sel (s u : ℕ)
    (h : units.find? (fun v => decide (v ≤ s)) = some u) :
    Floor s = s / u * u := by
  unfold Floor
  rw [h]

theorem Floor_none (s : ℕ)
    (h : units.find? (fun v => decide (v ≤ s)) = none) : Floor s = s := by
  unfold Floor
  rw [h]

theorem Round_sel (s u : ℕ)
    (h : units.find? (fun v => decide (v ≤ s)) = some u) :
    Round s = mroundF (fdiv (toF s) (toF u)) * u % 2 ^ 64 := by
  unfold Round
  rw [h]

theorem Round_none (s : ℕ)
    (h : units.find? (fun v => decide (v ≤ s)) = none) : Round s = s := by
  unfold Round
  rw [h]

/-- C7: formatting the result of `Floor` or `Round` never produces a
decimal point: the selected quotient is always a whole binary64 value, so
`format` takes its integer branch (and values below every unit format as
plain integer byte counts). -/
theorem floor_round_no_decimal_point (s : ℕ) (hs : s < 2 ^ 64) :
    '.' ∉ sizeString (Floor s) ∧ '.' ∉ sizeString (Round s) := by
  constructor
  · by_cases c1 : Pebibyte ≤ s
    · have hfind : units.find? (fun v => decide (v ≤ s)) = some Pebibyte := by
        rw [units_find_eq, if_pos c1]
      rw [Floor_sel s Pebibyte hfind]
      exact noDot_pi (s / Pebibyte) (by rw [Pebibyte_lit] at c1 ⊢; omega) (by rw [Pebibyte_lit]; omega)
    · by_cases c2 : Petabyte ≤ s
      · have hfind : units.find? (fun v => decide (v ≤ s)) = some Petabyte := by
          rw [units_find_eq, if_neg c1, if_pos c2]
        rw [Floor_sel s Petabyte hfind]
        have h1 : s / Petabyte * Petabyte = Petabyte := by
          rw [Petabyte_lit] at c2 ⊢
          rw [Pebibyte_lit] at c1
          omega
        rw [h1]
        decide
      · by_cases c3 : Tebibyte ≤ s
        · have hfind : units.find? (fun v => decide (v ≤ s)) = some Tebibyte := by
            rw [units_find_eq, if_neg c1, if_neg c2, if_pos c3]
          rw [Floor_sel s Tebibyte hfind]
          exact noDot_ti (s / Tebibyte) (by rw [Tebibyte_lit] at c3 ⊢; omega) (by rw [Tebibyte_lit]; rw [Petabyte_lit] at c2; omega)
        · by_cases c4 : Terabyte ≤ s
          · have hfind : units.find? (fun v => decide (v ≤ s)) = some Terabyte := by
              rw [units_find_eq, if_neg c1, if_neg c2, if_neg c3, if_pos c4]
            rw [Floor_sel s Terabyte hfind]
            have h1 : s / Terabyte * Terabyte = Terabyte := by
              rw [Terabyte_lit] at c4 ⊢
              rw [Tebibyte_lit] at c3
              omega
            rw [h1]
            decide
          · by_cases c5 : Gibibyte ≤ s
            · have hfind : units.find? (fun v => decide (v ≤ s)) = some Gibibyte := by
                rw [units_find_eq, if_neg c1, if_neg c2, if_neg c3, if_neg c4, if_pos c5]
              rw [Floor_sel s Gibibyte hfind]
              exact noDot_gi (s / Gibibyte) (by rw [Gibibyte_lit] at c5 ⊢; omega) (by rw [Gibibyte_lit]; rw [Terabyte_lit] at c4; omega)
            · by_cases c6 : Gigabyte ≤ s
              · have hfind : units.find? (fun v => decide (v ≤ s)) = some Gigabyte := by
                  rw [units_find_eq, if_neg c1, if_neg c2, if_neg c3, if_neg c4, if_neg c5, if_pos c6]
                rw [Floor_sel s Gigabyte hfind]
                have h1 : s / Gigabyte * Gigabyte = Gigabyte := by
                  rw [Gigabyte_lit] at c6 ⊢
                  rw [Gibibyte_lit] at c5
                  omega
                rw [h1]
                decide
              · by_cases c7 : Mebibyte ≤ s
                · have hfind : units.find? (fun v => decide (v ≤ s)) = some Mebibyte := by
                    rw [units_find_eq, if_neg c1, if_neg c2, if_neg c3, if_neg c4, if_neg c5, if_neg c6, if_pos c7]
                  rw [Floor_sel s Mebibyte hfind]
                  exact noDot_mi (s / Mebibyte) (by rw [Mebibyte_lit] at c7 ⊢; omega) (by rw [Mebibyte_lit]; rw [Gigabyte_lit] at c6; omega)
                · by_cases c8 : Megabyte ≤ s
                  · have hfind : units.find? (fun v => decide (v ≤ s)) = some Megabyte := by
                      rw [units_find_eq, if_neg c1, if_neg c2, if_neg c3, if_neg c4, if_neg c5, if_neg c6, if_neg c7, if_pos c8]
                    rw [Floor_sel s Megabyte hfind]
                    have h1 : s / Megabyte * Megabyte = Megabyte := by
                      rw [Megabyte_lit] at c8 ⊢
                      rw [Mebibyte_lit] at c7
                      omega
                    rw [h1]
                    decide
                  · by_cases c9 : Kibibyte ≤ s
                    · have hfind : units.find? (fun v => decide (v ≤ s)) = some Kibibyte := by
                        rw [units_find_eq, if_neg c1, if_neg c2, if_neg c3, if_neg c4, if_neg c5, if_neg c6, if_neg c7, if_neg c8, if_pos c9]
                      rw [Floor_sel s Kibibyte hfind]
                      exact noDot_ki (s / Kibibyte) (by rw [Kibibyte_lit] at c9 ⊢; omega) (by rw [Kibibyte_lit]; rw [Megabyte_lit] at c8; omega)
                    · by_cases c10 : Kilobyte ≤ s
                      · have hfind : units.find? (fun v => decide (v ≤ s)) = some Kilobyte := by
                          rw [units_find_eq, if_neg c1, if_neg c2, if_neg c3, if_neg c4, if_neg c5, if_neg c6, if_neg c7, if_neg c8, if_neg c9, if_pos c10]
                        rw [Floor_sel s Kilobyte hfind]
                        have h1 : s / Kilobyte * Kilobyte = Kilobyte := by
                          rw [Kilobyte_lit] at c10 ⊢
                          rw [Kibibyte_lit] at c9
                          omega
                        rw [h1]
                        decide
                      · have hfind : units.find? (fun v => decide (v ≤ s)) = none := by
                          rw [units_find_eq, if_neg c1, if_neg c2, if_neg c3, if_neg c4, if_neg c5, if_neg c6, if_neg c7, if_neg c8, if_neg c9, if_neg c10]
                        rw [Floor_none s hfind]
                        exact noDot_small s (by rw [Kilobyte_lit] at c10; omega)
  · by_cases c1 : Pebibyte ≤ s
    · have hfind : units.find? (fun v => decide (v ≤ s)) = some Pebibyte := by
        rw [units_find_eq, if_pos c1]
      rw [Round_sel s Pebibyte hfind]
      obtain ⟨hr1, hr2⟩ := mround_pi_range s c1 hs
      set r := mroundF (fdiv (toF s) (toF Pebibyte)) with hrdef
      by_cases h16 : r = 16384
      · have hmod : r * Pebibyte % 2 ^ 64 = 0 := by
          rw [h16, Pebibyte_lit]
          norm_num
        rw [hmod]
        exact noDot_small 0 (by omega)
      · have hmod : r * Pebibyte % 2 ^ 64 = r * Pebibyte := by
          rw [Pebibyte_lit]
          rw [Nat.mod_eq_of_lt (by omega)]
        rw [hmod]
        exact noDot_pi r hr1 (by omega)
    · by_cases c2 : Petabyte ≤ s
      · have hfind : units.find? (fun v => decide (v ≤ s)) = some Petabyte := by
          rw [units_find_eq, if_neg c1, if_pos c2]
        rw [Round_sel s Petabyte hfind]
        have hr : mroundF (fdiv (toF s) (toF Petabyte)) = 1 := by
          refine mround_one_decimal s Petabyte Pebibyte ?_ ?_ c2 ?_ ?_ ?_
          · rw [Petabyte_lit]; omega
          · rw [Petabyte_lit]; norm_num
          · rw [Pebibyte_lit] at c1; omega
          · rw [Pebibyte_lit] at c1 ⊢; omega
          · rw [Petabyte_lit, Pebibyte_lit]; norm_num
        rw [hr]
        have h1 : 1 * Petabyte % 2 ^ 64 = Petabyte := by rw [Petabyte_lit]; norm_num
        rw [h1]
        decide
      · by_cases c3 : Tebibyte ≤ s
        · have hfind : units.find? (fun v => decide (v ≤ s)) = some Tebibyte := by
            rw [units_find_eq, if_neg c1, if_neg c2, if_pos c3]
          rw [Round_sel s Tebibyte hfind]
          have hs53 : s < 2 ^ 53 := by rw [Petabyte_lit] at c2; omega
          have hr : mroundF (fdiv (toF s) (toF Tebibyte))
              = (2 * s + Tebibyte) / (2 * Tebibyte) := by
            refine mround_halfup_exact s Tebibyte s 0
              (by rw [Tebibyte_lit] at c3; omega) hs53
              (by rw [Tebibyte_lit]; omega) (by rw [Tebibyte_lit]; norm_num)
              (Or.inr ⟨40, ?_⟩) hs53
            rw [Tebibyte_lit]
            push_cast
            rw [div_eq_mul_inv]
            norm_num
          rw [hr]
          have hmod : (2 * s + Tebibyte) / (2 * Tebibyte) * Tebibyte % 2 ^ 64
              = (2 * s + Tebibyte) / (2 * Tebibyte) * Tebibyte := by
            rw [Tebibyte_lit]
            rw [Nat.mod_eq_of_lt (by rw [Petabyte_lit] at c2; omega)]
          rw [hmod]
          exact noDot_ti _ (by rw [Tebibyte_lit] at c3 ⊢; omega)
            (by rw [Tebibyte_lit]; rw [Petabyte_lit] at c2; omega)
        · by_cases c4 : Terabyte ≤ s
          · have hfind : units.find? (fun v => decide (v ≤ s)) = some Terabyte := by
              rw [units_find_eq, if_neg c1, if_neg c2, if_neg c3, if_pos c4]
            rw [Round_sel s Terabyte hfind]
            have hr : mroundF (fdiv (toF s) (toF Terabyte)) = 1 := by
              refine mround_one_decimal s Terabyte Tebibyte ?_ ?_ c4 ?_ ?_ ?_
              · rw [Terabyte_lit]; omega
              · rw [Terabyte_lit]; norm_num
              · rw [Tebibyte_lit] at c3; omega
              · rw [Tebibyte_lit] at c3 ⊢; omega
              · rw [Terabyte_lit, Tebibyte_lit]; norm_num
            rw [hr]
            have h1 : 1 * Terabyte % 2 ^ 64 = Terabyte := by rw [Terabyte_lit]; norm_num
            rw [h1]
            decide
          · by_cases c5 : Gibibyte ≤ s
            · have hfind : units.find? (fun v => decide (v ≤ s)) = some Gibibyte := by
                rw [units_find_eq, if_neg c1, if_neg c2, if_neg c3, if_neg c4, if_pos c5]
              rw [Round_sel s Gibibyte hfind]
              have hs53 : s < 2 ^ 53 := by rw [Terabyte_lit] at c4; omega
              have hr : mroundF (fdiv (toF s) (toF Gibibyte))
                  = (2 * s + Gibibyte) / (2 * Gibibyte) := by
                refine mround_halfup_exact s Gibibyte s 0
                  (by rw [Gibibyte_lit] at c5; omega) hs53
                  (by rw [Gibibyte_lit]; omega) (by rw [Gibibyte_lit]; norm_num)
                  (Or.inr ⟨30, ?_⟩) hs53
                rw [Gibibyte_lit]
                push_cast
                rw [div_eq_mul_inv]
                norm_num
              rw [hr]
              have hmod : (2 * s + Gibibyte) / (2 * Gibibyte) * Gibibyte % 2 ^ 64
                  = (2 * s + Gibibyte) / (2 * Gibibyte) * Gibibyte := by
                rw [Gibibyte_lit]
                rw [Nat.mod_eq_of_lt (by rw [Terabyte_lit] at c4; omega)]
              rw [hmod]
              exact noDot_gi _ (by rw [Gibibyte_lit] at c5 ⊢; omega)
                (by rw [Gibibyte_lit]; rw [Terabyte_lit] at c4; omega)
            · by_cases c6 : Gigabyte ≤ s
              · have hfind : units.find? (fun v => decide (v ≤ s)) = some Gigabyte := by
                  rw [units_find_eq, if_neg c1, if_neg c2, if_neg c3, if_neg c4, if_neg c5, if_pos c6]
                rw [Round_sel s Gigabyte hfind]
                have hr : mroundF (fdiv (toF s) (toF Gigabyte)) = 1 := by
                  refine mround_one_decimal s Gigabyte Gibibyte ?_ ?_ c6 ?_ ?_ ?_
                  · rw [Gigabyte_lit]; omega
                  · rw [Gigabyte_lit]; norm_num
                  · rw [Gibibyte_lit] at c5; omega
                  · rw [Gibibyte_lit] at c5 ⊢; omega
                  · rw [Gigabyte_lit, Gibibyte_lit]; norm_num
                rw [hr]
                have h1 : 1 * Gigabyte % 2 ^ 64 = Gigabyte := by rw [Gigabyte_lit]; norm_num
                rw [h1]
                decide
              · by_cases c7 : Mebibyte ≤ s
                · have hfind : units.find? (fun v => decide (v ≤ s)) = some Mebibyte := by
                    rw [units_find_eq, if_neg c1, if_neg c2, if_neg c3, if_neg c4, if_neg c5, if_neg c6, if_pos c7]
                  rw [Round_sel s Mebibyte hfind]
                  have hs53 : s < 2 ^ 53 := by rw [Gigabyte_lit] at c6; omega
                  have hr : mroundF (fdiv (toF s) (toF Mebibyte))
                      = (2 * s + Mebibyte) / (2 * Mebibyte) := by
                    refine mround_halfup_exact s Mebibyte s 0
                      (by rw [Mebibyte_lit] at c7; omega) hs53
                      (by rw [Mebibyte_lit]; omega) (by rw [Mebibyte_lit]; norm_num)
                      (Or.inr ⟨20, ?_⟩) hs53
                    rw [Mebibyte_lit]
                    push_cast
                    rw [div_eq_mul_inv]
                    norm_num
                  rw [hr]
                  have hmod : (2 * s + Mebibyte) / (2 * Mebibyte) * Mebibyte % 2 ^ 64
                      = (2 * s + Mebibyte) / (2 * Mebibyte) * Mebibyte := by
                    rw [Mebibyte_lit]
                    rw [Nat.mod_eq_of_lt (by rw [Gigabyte_lit] at c6; omega)]
                  rw [hmod]
                  exact noDot_mi _ (by rw [Mebibyte_lit] at c7 ⊢; omega)
                    (by rw [Mebibyte_lit]; rw [Gigabyte_lit] at c6; omega)
                · by_cases c8 : Megabyte ≤ s
                  · have hfind : units.find? (fun v => decide (v ≤ s)) = some Megabyte := by
                      rw [units_find_eq, if_neg c1, if_neg c2, if_neg c3, if_neg c4, if_neg c5, if_neg c6, if_neg c7, if_pos c8]
                    rw [Round_sel s Megabyte hfind]
                    have hr : mroundF (fdiv (toF s) (toF Megabyte)) = 1 := by
                      refine mround_one_decimal s Megabyte Mebibyte ?_ ?_ c8 ?_ ?_ ?_
                      · rw [Megabyte_lit]; omega
                      · rw [Megabyte_lit]; norm_num
                      · rw [Mebibyte_lit] at c7; omega
                      · rw [Mebibyte_lit] at c7 ⊢; omega
                      · rw [Megabyte_lit, Mebibyte_lit]; norm_num
                    rw [hr]
                    have h1 : 1 * Megabyte % 2 ^ 64 = Megabyte := by rw [Megabyte_lit]; norm_num
                    rw [h1]
                    decide
                  · by_cases c9 : Kibibyte ≤ s
                    · have hfind : units.find? (fun v => decide (v ≤ s)) = some Kibibyte := by
                        rw [units_find_eq, if_neg c1, if_neg c2, if_neg c3, if_neg c4, if_neg c5, if_neg c6, if_neg c7, if_neg c8, if_pos c9]
                      rw [Round_sel s Kibibyte hfind]
                      have hs53 : s < 2 ^ 53 := by rw [Megabyte_lit] at c8; omega
                      have hr : mroundF (fdiv (toF s) (toF Kibibyte))
                          = (2 * s + Kibibyte) / (2 * Kibibyte) := by
                        refine mround_halfup_exact s Kibibyte s 0
                          (by rw [Kibibyte_lit] at c9; omega) hs53
                          (by rw [Kibibyte_lit]; omega) (by rw [Kibibyte_lit]; norm_num)
                          (Or.inr ⟨10, ?_⟩) hs53
                        rw [Kibibyte_lit]
                        push_cast
                        rw [div_eq_mul_inv]
                        norm_num
                      rw [hr]
                      have hmod : (2 * s + Kibibyte) / (2 * Kibibyte) * Kibibyte % 2 ^ 64
                          = (2 * s + Kibibyte) / (2 * Kibibyte) * Kibibyte := by
                        rw [Kibibyte_lit]
                        rw [Nat.mod_eq_of_lt (by rw [Megabyte_lit] at c8; omega)]
                      rw [hmod]
                      exact noDot_ki _ (by rw [Kibibyte_lit] at c9 ⊢; omega)
                        (by rw [Kibibyte_lit]; rw [Megabyte_lit] at c8; omega)
                    · by_cases c10 : Kilobyte ≤ s
                      · have hfind : units.find? (fun v => decide (v ≤ s)) = some Kilobyte := by
                          rw [units_find_eq, if_neg c1, if_neg c2, if_neg c3, if_neg c4, if_neg c5, if_neg c6, if_neg c7, if_neg c8, if_neg c9, if_pos c10]
                        rw [Round_sel s Kilobyte hfind]
                        have hr : mroundF (fdiv (toF s) (toF Kilobyte)) = 1 := by
                          refine mround_one_decimal s Kilobyte Kibibyte ?_ ?_ c10 ?_ ?_ ?_
                          · rw [Kilobyte_lit]; omega
                          · rw [Kilobyte_lit]; norm_num
                          · rw [Kibibyte_lit] at c9; omega
                          · rw [Kibibyte_lit] at c9 ⊢; omega
                          · rw [Kilobyte_lit, Kibibyte_lit]; norm_num
                        rw [hr]
                        have h1 : 1 * Kilobyte % 2 ^ 64 = Kilobyte := by rw [Kilobyte_lit]; norm_num
                        rw [h1]
                        decide
                      · have hfind : units.find? (fun v => decide (v ≤ s)) = none := by
                          rw [units_find_eq, if_neg c1, if_neg c2, if_neg c3, if_neg c4, if_neg c5, if_neg c6, if_neg c7, if_neg c8, if_neg c9, if_neg c10]
                        rw [Round_none s hfind]
                        exact noDot_small s (by rw [Kilobyte_lit] at c10; omega)


theorem roundSpec_sel (s u : ℕ)
    (h : units.find? (fun v => decide (v ≤ s)) = some u) :
    roundSpec s = roundHalfUp s u := by
  unfold roundSpec
  rw [h]

/-- C5 (amended): for `s < 2^53` (where `float64(s)` is exact),
`Round` returns the nearest whole multiple of the first listed unit
`u ≤ s`, ties rounding away from zero — the integer half-up value
`(2s+u)/(2u) * u` — and that value is never farther from `s` than any
other multiple of `u`; values below every unit are unchanged.  (For
`s ≥ 2^53` double rounding and the wrapping multiplication can deviate,
see the counterexamples.) -/
theorem round_small_spec (s : ℕ) (hs : s < 2 ^ 53) :
    Round s = roundSpec s ∧
    ∀ v k : ℕ, units.find? (fun u => decide (u ≤ s)) = some v →
      ((Round s : ℤ) - (s : ℤ)).natAbs ≤ (((k * v : ℕ) : ℤ) - (s : ℤ)).natAbs := by
  by_cases c1 : Pebibyte ≤ s
  · have hfind : units.find? (fun v => decide (v ≤ s)) = some Pebibyte := by
      rw [units_find_eq, if_pos c1]
    have hr : mroundF (fdiv (toF s) (toF Pebibyte))
        = (2 * s + Pebibyte) / (2 * Pebibyte) := by
      refine mround_halfup_exact s Pebibyte s 0
        (by rw [Pebibyte_lit] at c1; omega) hs
        (by rw [Pebibyte_lit]; omega) (by rw [Pebibyte_lit]; norm_num)
        (Or.inr ⟨50, ?_⟩) hs
      rw [Pebibyte_lit]
      push_cast
      rw [div_eq_mul_inv]
      norm_num
    have hRval : Round s = (2 * s + Pebibyte) / (2 * Pebibyte) * Pebibyte := by
      rw [Round_sel s Pebibyte hfind, hr]
      rw [Pebibyte_lit]
      rw [Nat.mod_eq_of_lt (by omega)]
    have hSval : roundSpec s = (2 * s + Pebibyte) / (2 * Pebibyte) * Pebibyte := by
      rw [roundSpec_sel s Pebibyte hfind]
      unfold roundHalfUp
      rfl
    refine ⟨hRval.trans hSval.symm, ?_⟩
    intro v k hfind2
    rw [hfind] at hfind2
    obtain rfl : Pebibyte = v := Option.some.inj hfind2
    rw [hRval]
    rw [Pebibyte_lit] at c1 ⊢
    push_cast
    omega
  · by_cases c2 : Petabyte ≤ s
    · have hfind : units.find? (fun v => decide (v ≤ s)) = some Petabyte := by
        rw [units_find_eq, if_neg c1, if_pos c2]
      have hr : mroundF (fdiv (toF s) (toF Petabyte)) = 1 := by
        refine mround_one_decimal s Petabyte Pebibyte ?_ ?_ c2 ?_ ?_ ?_
        · rw [Petabyte_lit]; omega
        · rw [Petabyte_lit]; norm_num
        · exact hs
        · rw [Pebibyte_lit] at c1 ⊢; omega
        · rw [Petabyte_lit, Pebibyte_lit]; norm_num
      have hRval : Round s = Petabyte := by
        rw [Round_sel s Petabyte hfind, hr]
        rw [Petabyte_lit]
        norm_num
      have hSval : roundSpec s = Petabyte := by
        rw [roundSpec_sel s Petabyte hfind]
        unfold roundHalfUp
        rw [Petabyte_lit] at c2 ⊢
        rw [Pebibyte_lit] at c1
        omega
      refine ⟨hRval.trans hSval.symm, ?_⟩
      intro v k hfind2
      rw [hfind] at hfind2
      obtain rfl : Petabyte = v := Option.some.inj hfind2
      rw [hRval]
      rw [Petabyte_lit] at c2 ⊢
      rw [Pebibyte_lit] at c1
      push_cast
      omega
    · by_cases c3 : Tebibyte ≤ s
      · have hfind : units.find? (fun v => decide (v ≤ s)) = some Tebibyte := by
          rw [units_find_eq, if_neg c1, if_neg c2, if_pos c3]
        have hs53b : s < 2 ^ 53 := hs
        have hr : mroundF (fdiv (toF s) (toF Tebibyte))
            = (2 * s + Tebibyte) / (2 * Tebibyte) := by
          refine mround_halfup_exact s Tebibyte s 0
            (by rw [Tebibyte_lit] at c3; omega) hs
            (by rw [Tebibyte_lit]; omega) (by rw [Tebibyte_lit]; norm_num)
            (Or.inr ⟨40, ?_⟩) hs
          rw [Tebibyte_lit]
          push_cast
          rw [div_eq_mul_inv]
          norm_num
        have hRval : Round s = (2 * s + Tebibyte) / (2 * Tebibyte) * Tebibyte := by
          rw [Round_sel s Tebibyte hfind, hr]
          rw [Tebibyte_lit]
          rw [Nat.mod_eq_of_lt (by omega)]
        have hSval : roundSpec s = (2 * s + Tebibyte) / (2 * Tebibyte) * Tebibyte := by
          rw [roundSpec_sel s Tebibyte hfind]
          unfold roundHalfUp
          rfl
        refine ⟨hRval.trans hSval.symm, ?_⟩
        intro v k hfind2
        rw [hfind] at hfind2
        obtain rfl : Tebibyte = v := Option.some.inj hfind2
        rw [hRval]
        rw [Tebibyte_lit] at c3 ⊢
        push_cast
        omega
      · by_cases c4 : Terabyte ≤ s
        · have hfind : units.find? (fun v => decide (v ≤ s)) = some Terabyte := by
            rw [units_find_eq, if_neg c1, if_neg c2, if_neg c3, if_pos c4]
          have hr : mroundF (fdiv (toF s) (toF Terabyte)) = 1 := by
            refine mround_one_decimal s Terabyte Tebibyte ?_ ?_ c4 ?_ ?_ ?_
            · rw [Terabyte_lit]; omega
            · rw [Terabyte_lit]; norm_num
            · exact hs
            · rw [Tebibyte_lit] at c3 ⊢; omega
            · rw [Terabyte_lit, Tebibyte_lit]; norm_num
          have hRval : Round s = Terabyte := by
            rw [Round_sel s Terabyte hfind, hr]
            rw [Terabyte_lit]
            norm_num
          have hSval : roundSpec s = Terabyte := by
            rw [roundSpec_sel s Terabyte hfind]
            unfold roundHalfUp
            rw [Terabyte_lit] at c4 ⊢
            rw [Tebibyte_lit] at c3
            omega
          refine ⟨hRval.trans hSval.symm, ?_⟩
          intro v k hfind2
          rw [hfind] at hfind2
          obtain rfl : Terabyte = v := Option.some.inj hfind2
          rw [hRval]
          rw [Terabyte_lit] at c4 ⊢
          rw [Tebibyte_lit] at c3
          push_cast
          omega
        · by_cases c5 : Gibibyte ≤ s
          · have hfind : units.find? (fun v => decide (v ≤ s)) = some Gibibyte := by
              rw [units_find_eq, if_neg c1, if_neg c2, if_neg c3, if_neg c4, if_pos c5]
            have hs53b : s < 2 ^ 53 := hs
            have hr : mroundF (fdiv (toF s) (toF Gibibyte))
                = (2 * s + Gibibyte) / (2 * Gibibyte) := by
              refine mround_halfup_exact s Gibibyte s 0
                (by rw [Gibibyte_lit] at c5; omega) hs
                (by rw [Gibibyte_lit]; omega) (by rw [Gibibyte_lit]; norm_num)
                (Or.inr ⟨30, ?_⟩) hs
              rw [Gibibyte_lit]
              push_cast
              rw [div_eq_mul_inv]
              norm_num
            have hRval : Round s = (2 * s + Gibibyte) / (2 * Gibibyte) * Gibibyte := by
              rw [Round_sel s Gibibyte hfind, hr]
              rw [Gibibyte_lit]
              rw [Nat.mod_eq_of_lt (by omega)]
            have hSval : roundSpec s = (2 * s + Gibibyte) / (2 * Gibibyte) * Gibibyte := by
              rw [roundSpec_sel s Gibibyte hfind]
              unfold roundHalfUp
              rfl
            refine ⟨hRval.trans hSval.symm, ?_⟩
            intro v k hfind2
            rw [hfind] at hfind2
            obtain rfl : Gibibyte = v := Option.some.inj hfind2
            rw [hRval]
            rw [Gibibyte_lit] at c5 ⊢
            push_cast
            omega
          · by_cases c6 : Gigabyte ≤ s
            · have hfind : units.find? (fun v => decide (v ≤ s)) = some Gigabyte := by
                rw [units_find_eq, if_neg c1, if_neg c2, if_neg c3, if_neg c4, if_neg c5, if_pos c6]
              have hr : mroundF (fdiv (toF s) (toF Gigabyte)) = 1 := by
                refine mround_one_decimal s Gigabyte Gibibyte ?_ ?_ c6 ?_ ?_ ?_
                · rw [Gigabyte_lit]; omega
                · rw [Gigabyte_lit]; norm_num
                · exact hs
                · rw [Gibibyte_lit] at c5 ⊢; omega
                · rw [Gigabyte_lit, Gibibyte_lit]; norm_num
              have hRval : Round s = Gigabyte := by
                rw [Round_sel s Gigabyte hfind, hr]
                rw [Gigabyte_lit]
                norm_num
              have hSval : roundSpec s = Gigabyte := by
                rw [roundSpec_sel s Gigabyte hfind]
                unfold roundHalfUp
                rw [Gigabyte_lit] at c6 ⊢
                rw [Gibibyte_lit] at c5
                omega
              refine ⟨hRval.trans hSval.symm, ?_⟩
              intro v k hfind2
              rw [hfind] at hfind2
              obtain rfl : Gigabyte = v := Option.some.inj hfind2
              rw [hRval]
              rw [Gigabyte_lit] at c6 ⊢
              rw [Gibibyte_lit] at c5
              push_cast
              omega
            · by_cases c7 : Mebibyte ≤ s
              · have hfind : units.find? (fun v => decide (v ≤ s)) = some Mebibyte := by
                  rw [units_find_eq, if_neg c1, if_neg c2, if_neg c3, if_neg c4, if_neg c5, if_neg c6, if_pos c7]
                have hs53b : s < 2 ^ 53 := hs
                have hr : mroundF (fdiv (toF s) (toF Mebibyte))
                    = (2 * s + Mebibyte) / (2 * Mebibyte) := by
                  refine mround_halfup_exact s Mebibyte s 0
                    (by rw [Mebibyte_lit] at c7; omega) hs
                    (by rw [Mebibyte_lit]; omega) (by rw [Mebibyte_lit]; norm_num)
                    (Or.inr ⟨20, ?_⟩) hs
                  rw [Mebibyte_lit]
                  push_cast
                  rw [div_eq_mul_inv]
                  norm_num
                have hRval : Round s = (2 * s + Mebibyte) / (2 * Mebibyte) * Mebibyte := by
                  rw [Round_sel s Mebibyte hfind, hr]
                  rw [Mebibyte_lit]
                  rw [Nat.mod_eq_of_lt (by omega)]
                have hSval : roundSpec s = (2 * s + Mebibyte) / (2 * Mebibyte) * Mebibyte := by
                  rw [roundSpec_sel s Mebibyte hfind]
                  unfold roundHalfUp
                  rfl
                refine ⟨hRval.trans hSval.symm, ?_⟩
                intro v k hfind2
                rw [hfind] at hfind2
                obtain rfl : Mebibyte = v := Option.some.inj hfind2
                rw [hRval]
                rw [Mebibyte_lit] at c7 ⊢
                push_cast
                omega
              · by_cases c8 : Megabyte ≤ s
                · have hfind : units.find? (fun v => decide (v ≤ s)) = some Megabyte := by
                    rw [units_find_eq, if_neg c1, if_neg c2, if_neg c3, if_neg c4, if_neg c5, if_neg c6, if_neg c7, if_pos c8]
                  have hr : mroundF (fdiv (toF s) (toF Megabyte)) = 1 := by
                    refine mround_one_decimal s Megabyte Mebibyte ?_ ?_ c8 ?_ ?_ ?_
                    · rw [Megabyte_lit]; omega
                    · rw [Megabyte_lit]; norm_num
                    · exact hs
                    · rw [Mebibyte_lit] at c7 ⊢; omega
                    · rw [Megabyte_lit, Mebibyte_lit]; norm_num
                  have hRval : Round s = Megabyte := by
                    rw [Round_sel s Megabyte hfind, hr]
                    rw [Megabyte_lit]
                    norm_num
                  have hSval : roundSpec s = Megabyte := by
                    rw [roundSpec_sel s Megabyte hfind]
                    unfold roundHalfUp
                    rw [Megabyte_lit] at c8 ⊢
                    rw [Mebibyte_lit] at c7
                    omega
                  refine ⟨hRval.trans hSval.symm, ?_⟩
                  intro v k hfind2
                  rw [hfind] at hfind2
                  obtain rfl : Megabyte = v := Option.some.inj hfind2
                  rw [hRval]
                  rw [Megabyte_lit] at c8 ⊢
                  rw [Mebibyte_lit] at c7
                  push_cast
                  omega
                · by_cases c9 : Kibibyte ≤ s
                  · have hfind : units.find? (fun v => decide (v ≤ s)) = some Kibibyte := by
                      rw [units_find_eq, if_neg c1, if_neg c2, if_neg c3, if_neg c4, if_neg c5, if_neg c6, if_neg c7, if_neg c8, if_pos c9]
                    have hs53b : s < 2 ^ 53 := hs
                    have hr : mroundF (fdiv (toF s) (toF Kibibyte))
                        = (2 * s + Kibibyte) / (2 * Kibibyte) := by
                      refine mround_halfup_exact s Kibibyte s 0
                        (by rw [Kibibyte_lit] at c9; omega) hs
                        (by rw [Kibibyte_lit]; omega) (by rw [Kibibyte_lit]; norm_num)
                        (Or.inr ⟨10, ?_⟩) hs
                      rw [Kibibyte_lit]
                      push_cast
                      rw [div_eq_mul_inv]
                      norm_num
                    have hRval : Round s = (2 * s + Kibibyte) / (2 * Kibibyte) * Kibibyte := by
                      rw [Round_sel s Kibibyte hfind, hr]
                      rw [Kibibyte_lit]
                      rw [Nat.mod_eq_of_lt (by omega)]
                    have hSval : roundSpec s = (2 * s + Kibibyte) / (2 * Kibibyte) * Kibibyte := by
                      rw [roundSpec_sel s Kibibyte hfind]
                      unfold roundHalfUp
                      rfl
                    refine ⟨hRval.trans hSval.symm, ?_⟩
                    intro v k hfind2
                    rw [hfind] at hfind2
                    obtain rfl : Kibibyte = v := Option.some.inj hfind2
                    rw [hRval]
                    rw [Kibibyte_lit] at c9 ⊢
                    push_cast
                    omega
                  · by_cases c10 : Kilobyte ≤ s
                    · have hfind : units.find? (fun v => decide (v ≤ s)) = some Kilobyte := by
                        rw [units_find_eq, if_neg c1, if_neg c2, if_neg c3, if_neg c4, if_neg c5, if_neg c6, if_neg c7, if_neg c8, if_neg c9, if_pos c10]
                      have hr : mroundF (fdiv (toF s) (toF Kilobyte)) = 1 := by
                        refine mround_one_decimal s Kilobyte Kibibyte ?_ ?_ c10 ?_ ?_ ?_
                        · rw [Kilobyte_lit]; omega
                        · rw [Kilobyte_lit]; norm_num
                        · exact hs
                        · rw [Kibibyte_lit] at c9 ⊢; omega
                        · rw [Kilobyte_lit, Kibibyte_lit]; norm_num
                      have hRval : Round s = Kilobyte := by
                        rw [Round_sel s Kilobyte hfind, hr]
                        rw [Kilobyte_lit]
                        norm_num
                      have hSval : roundSpec s = Kilobyte := by
                        rw [roundSpec_sel s Kilobyte hfind]
                        unfold roundHalfUp
                        rw [Kilobyte_lit] at c10 ⊢
                        rw [Kibibyte_lit] at c9
                        omega
                      refine ⟨hRval.trans hSval.symm, ?_⟩
                      intro v k hfind2
                      rw [hfind] at hfind2
                      obtain rfl : Kilobyte = v := Option.some.inj hfind2
                      rw [hRval]
                      rw [Kilobyte_lit] at c10 ⊢
                      rw [Kibibyte_lit] at c9
                      push_cast
                      omega
                    · have hfind : units.find? (fun v => decide (v ≤ s)) = none := by
                        rw [units_find_eq, if_neg c1, if_neg c2, if_neg c3, if_neg c4, if_neg c5, if_neg c6, if_neg c7, if_neg c8, if_neg c9, if_neg c10]
                      have hRval : Round s = s := Round_none s hfind
                      have hSval : roundSpec s = s := by
                        unfold roundSpec
                        rw [hfind]
                      refine ⟨hRval.trans hSval.symm, ?_⟩
                      intro v k hfind2
                      rw [hfind] at hfind2
                      cases hfind2

/-! ### String-model lemmas for the `Parse` error classification -/

theorem takeWhile_all (p : Char → Bool) (l : List Char)
    (h : ∀ c ∈ l, p c = true) :
    l.takeWhile p = l ∧ l.dropWhile p = [] := by
  induction l with
  | nil => exact ⟨rfl, rfl⟩
  | cons c t ih =>
    have hc := h c (by simp)
    obtain ⟨h1, h2⟩ := ih fun x hx => h x (by simp [hx])
    rw [List.takeWhile_cons, List.dropWhile_cons, hc]
    refine ⟨?_, ?_⟩ <;> simp [h1, h2]

/-- `takeWhile`/`dropWhile` across an all-digit prefix followed by a
non-digit head. -/
theorem takeWhile_digits_append (i f : List Char)
    (hi : ∀ c ∈ i, isDigitC c = true)
    (hf : ∀ c, f.head? = some c → isDigitC c = false) :
    (i ++ f).takeWhile isDigitC = i ∧ (i ++ f).dropWhile isDigitC = f := by
  induction i with
  | nil =>
    simp only [List.nil_append]
    cases f with
    | nil => exact ⟨rfl, rfl⟩
    | cons c t =>
      have hc := hf c rfl
      rw [List.takeWhile_cons, List.dropWhile_cons]
      rw [hc]
      exact ⟨rfl, rfl⟩
  | cons c i ih =>
    have hc : isDigitC c = true := hi c (by simp)
    have hi2 : ∀ x ∈ i, isDigitC x = true := fun x hx => hi x (by simp [hx])
    obtain ⟨h1, h2⟩ := ih hi2
    rw [List.cons_append, List.takeWhile_cons, List.dropWhile_cons, hc]
    refine ⟨?_, ?_⟩ <;> simp [h1, h2]

theorem span_digits_append (i f : List Char)
    (hi : ∀ c ∈ i, isDigitC c = true)
    (hf : ∀ c, f.head? = some c → isDigitC c = false) :
    (i ++ f).span isDigitC = (i, f) := by
  rw [List.span_eq_take_drop]
  obtain ⟨h1, h2⟩ := takeWhile_digits_append i f hi hf
  rw [h1, h2]

/-- Every character of a digits-and-optional-dot-fraction string has code
in `[46, 58)`. -/
theorem digit_or_dot_small (i f : List Char)
    (hi : ∀ c ∈ i, isDigitC c = true)
    (hf : f = [] ∨ ∃ d, f = '.' :: d ∧ ∀ c ∈ d, isDigitC c = true) :
    ∀ c ∈ i ++ f, 46 ≤ c.toNat ∧ c.toNat < 58 := by
  have hdig : ∀ c : Char, isDigitC c = true → 46 ≤ c.toNat ∧ c.toNat < 58 := by
    intro c hc
    unfold isDigitC at hc
    simp only [Bool.and_eq_true, decide_eq_true_eq] at hc
    omega
  intro c hc
  rcases List.mem_append.mp hc with h | h
  · exact hdig c (hi c h)
  · rcases hf with rfl | ⟨d, rfl, hd⟩
    · cases h
    · rcases List.mem_cons.mp h with rfl | h2
      · exact ⟨by decide, by decide⟩
      · exact hdig c (hd c h2)

theorem dropSign_no_sign (l : List Char)
    (h : ∀ c ∈ l, 46 ≤ c.toNat ∧ c.toNat < 58) :
    dropSign l = (l, false, false) := by
  cases l with
  | nil => rfl
  | cons c r =>
    have hc := h c (by simp)
    have h1 : c ≠ '+' := by
      intro he
      subst he
      revert hc
      decide
    have h2 : c ≠ '-' := by
      intro he
      subst he
      revert hc
      decide
    show (if c = '+' then (r, false, true)
      else if c = '-' then (r, true, true)
      else (c :: r, false, false)) = (c :: r, false, false)
    rw [if_neg h1, if_neg h2]

/-- A digits-and-dot string never case-insensitively equals a word that
starts with a letter. -/
theorem ciEqA_small_false (l t : List Char) (c0 : Char) (hc0 : 96 < c0.toNat)
    (h : ∀ c ∈ l, 46 ≤ c.toNat ∧ c.toNat < 58) :
    ciEqA l (c0 :: t) = false := by
  cases l with
  | nil => rfl
  | cons c r =>
    have hc := h c (by simp)
    show ((decide (c = c0) || decide (c.toNat + 32 = c0.toNat)) && ciEqA r t) = false
    have h1 : (decide (c = c0) || decide (c.toNat + 32 = c0.toNat)) = false := by
      simp only [Bool.or_eq_false_iff, decide_eq_false_iff_not]
      constructor
      · intro he
        subst he
        omega
      · omega
    rw [h1]
    rfl

theorem uokLoop_no_underscore :
    ∀ l : List Char, (∀ c ∈ l, c ≠ '_') →
    ∀ saw, saw ≠ '_' → uokLoop false saw l = true := by
  intro l
  induction l with
  | nil =>
    intro _ saw hsaw
    unfold uokLoop
    exact decide_eq_true hsaw
  | cons c rest ih =>
    intro h saw hsaw
    have hc : c ≠ '_' := h c (by simp)
    have ih2 := ih fun x hx => h x (by simp [hx])
    show (if uokDigit false c = true then uokLoop false '0' rest
      else if c = '_' then (if saw = '0' then uokLoop false '_' rest else false)
      else if saw = '_' then false
      else uokLoop false '!' rest) = true
    by_cases hd : uokDigit false c = true
    · rw [if_pos hd]
      exact ih2 '0' (by decide)
    · rw [if_neg hd, if_neg hc, if_neg hsaw]
      exact ih2 '!' (by decide)

theorem underscoreOK_digits (l : List Char)
    (h : ∀ c ∈ l, 46 ≤ c.toNat ∧ c.toNat < 58) :
    underscoreOK l = true := by
  have hn : ∀ c ∈ l, c ≠ '_' := by
    intro c hc he
    have h2 := h c hc
    subst he
    revert h2
    decide
  unfold underscoreOK
  rw [dropSign_no_sign l h]
  simp only []
  split
  · rename_i c rest
    have hc := h c (by simp)
    have hx : ¬((c = 'x' || c = 'X') = true) := by
      simp only [Bool.or_eq_true, decide_eq_true_eq]
      rintro (rfl | rfl) <;> revert hc <;> decide
    rw [if_neg hx]
    exact uokLoop_no_underscore _ hn '^' (by decide)
  · exact uokLoop_no_underscore _ hn '^' (by decide)

theorem parseNum_small (l : List Char) (neg : Bool)
    (h : ∀ c ∈ l, 46 ≤ c.toNat ∧ c.toNat < 58) :
    parseNum l neg = parseDec l neg := by
  unfold parseNum
  split
  · rename_i c rest
    have hc := h c (by simp)
    have hx : ¬((c = 'x' || c = 'X') = true) := by
      simp only [Bool.or_eq_true, decide_eq_true_eq]
      rintro (rfl | rfl) <;> revert hc <;> decide
    rw [if_neg hx]
  · rfl

/-- `parseDec` on the concatenation of the regex's digit groups: a
digitless numeric portion is a syntax error, anything else feeds the
mantissa and fraction length to `mkDec`. -/
theorem parseDec_digits (i f : List Char) (neg : Bool)
    (hi : ∀ c ∈ i, isDigitC c = true)
    (hf : f = [] ∨ ∃ d, f = '.' :: d ∧ ∀ c ∈ d, isDigitC c = true) :
    parseDec (i ++ f) neg =
      if i = [] ∧ (f = [] ∨ f = ['.']) then .error .invalid
      else mkDec (natOfDigits (i ++ fracDigits f)) (fracDigits f).length 0 neg := by
  rcases hf with rfl | ⟨d, rfl, hd⟩
  · have hspan : (i ++ ([] : List Char)).span isDigitC = (i, []) := by
      rw [List.append_nil, List.span_eq_take_drop,
        (takeWhile_all isDigitC i hi).1, (takeWhile_all isDigitC i hi).2]
    unfold parseDec
    rw [hspan]
    simp only []
    by_cases hi0 : i = []
    · subst hi0
      rfl
    · simp [hi0, fracDigits]
  · have hspan : (i ++ '.' :: d).span isDigitC = (i, '.' :: d) :=
      span_digits_append i ('.' :: d) hi (by
        intro c hc
        simp only [List.head?_cons, Option.some.injEq] at hc
        rw [← hc]
        rfl)
    have hspan2 : d.span isDigitC = (d, []) := by
      rw [List.span_eq_take_drop, (takeWhile_all isDigitC d hd).1,
        (takeWhile_all isDigitC d hd).2]
    unfold parseDec
    rw [hspan]
    simp only []
    rw [hspan2]
    simp only []
    by_cases hid : i = [] ∧ d = []
    · obtain ⟨rfl, rfl⟩ := hid
      rfl
    · have hb : (decide (i = []) && decide (d = [])) = false := by
        rcases Decidable.not_and_iff_or_not.mp hid with h1 | h1 <;> simp [h1]
      simp [fracDigits, hb, hid]

/-- What `strconv.ParseFloat` does on exactly the strings the regex's
numeric groups can produce. -/
theorem goParseFloat_digits (i f : List Char)
    (hi : ∀ c ∈ i, isDigitC c = true)
    (hf : f = [] ∨ ∃ d, f = '.' :: d ∧ ∀ c ∈ d, isDigitC c = true) :
    goParseFloat (i ++ f) =
      if i = [] ∧ (f = [] ∨ f = ['.']) then .error .invalid
      else mkDec (natOfDigits (i ++ fracDigits f)) (fracDigits f).length 0 false := by
  have hsm := digit_or_dot_small i f hi hf
  have hds := dropSign_no_sign (i ++ f) hsm
  have hfil : (i ++ f).filter (fun c => decide (c ≠ '_')) = i ++ f := by
    rw [List.filter_eq_self]
    intro a ha
    simp only [decide_eq_true_eq]
    intro he
    have h2 := hsm a ha
    rw [he] at h2
    revert h2
    decide
  have hinf : ciEqA (i ++ f) "inf".data = false :=
    ciEqA_small_false (i ++ f) _ 'i' (by decide) hsm
  have hinfy : ciEqA (i ++ f) "infinity".data = false :=
    ciEqA_small_false (i ++ f) _ 'i' (by decide) hsm
  have hnan : ciEqA (i ++ f) "nan".data = false :=
    ciEqA_small_false (i ++ f) _ 'n' (by decide) hsm
  unfold goParseFloat
  rw [hds]
  simp only []
  simp only [hinf, hinfy, hnan, Bool.or_self, Bool.and_false,
    underscoreOK_digits (i ++ f) hsm, Bool.not_true, Bool.false_eq_true,
    if_false, hfil]
  rw [parseNum_small (i ++ f) false hsm]
  exact parseDec_digits i f false hi hf

theorem mem_takeWhile_pred (p : Char → Bool) (l : List Char) (c : Char)
    (h : c ∈ l.takeWhile p) : p c = true ∧ c ∈ l :=
  ⟨List.mem_takeWhile_imp h, (List.takeWhile_sublist p).mem h⟩

theorem mem_dropWhile_mem (p : Char → Bool) (l : List Char) (c : Char)
    (h : c ∈ l.dropWhile p) : c ∈ l :=
  (List.dropWhile_suffix p).sublist.mem h

/-- Shapes of a regex match: the integer group is all digits, the
fraction group is empty or a dot followed by digits, and the suffix group
is a nonempty run of lowercase letters taken from the input. -/
theorem matchAt_shapes (l i f su : List Char)
    (h : matchAt l = some (i, f, su)) :
    (∀ c ∈ i, isDigitC c = true) ∧
    (f = [] ∨ ∃ d, f = '.' :: d ∧ ∀ c ∈ d, isDigitC c = true) ∧
    su ≠ [] ∧ (∀ c ∈ su, isLowerAZ c = true ∧ c ∈ l) := by
  unfold matchAt at h
  simp only [List.span_eq_take_drop] at h
  split at h
  · rename_i t heq
    split at h
    · exact absurd h (by simp)
    · rename_i hsu
      simp only [Option.some.injEq, Prod.mk.injEq] at h
      obtain ⟨h1, h2, h3⟩ := h
      subst h1
      subst h2
      subst h3
      refine ⟨fun c hc => (mem_takeWhile_pred _ _ _ hc).1, ?_, hsu, ?_⟩
      · right
        exact ⟨_, rfl, fun c hc => (mem_takeWhile_pred _ _ _ hc).1⟩
      · intro c hc
        obtain ⟨h1, h2⟩ := mem_takeWhile_pred _ _ _ hc
        refine ⟨h1, ?_⟩
        have h3 : c ∈ t := mem_dropWhile_mem _ _ _ h2
        have h4 : c ∈ l.dropWhile isDigitC := by rw [heq]; simp [h3]
        exact mem_dropWhile_mem _ _ _ h4
  · split at h
    · exact absurd h (by simp)
    · rename_i hr1 hsu
      simp only [Option.some.injEq, Prod.mk.injEq] at h
      obtain ⟨h1, h2, h3⟩ := h
      subst h1
      subst h2
      subst h3
      refine ⟨fun c hc => (mem_takeWhile_pred _ _ _ hc).1, Or.inl rfl, hsu, ?_⟩
      intro c hc
      obtain ⟨h1, h2⟩ := mem_takeWhile_pred _ _ _ hc
      exact ⟨h1, mem_dropWhile_mem _ _ _ h2⟩

theorem findMatch_shapes (l i f su : List Char)
    (h : findMatch l = some (i, f, su)) :
    (∀ c ∈ i, isDigitC c = true) ∧
    (f = [] ∨ ∃ d, f = '.' :: d ∧ ∀ c ∈ d, isDigitC c = true) ∧
    su ≠ [] ∧ (∀ c ∈ su, isLowerAZ c = true) := by
  induction l with
  | nil => cases h
  | cons c rest ih =>
    unfold findMatch at h
    cases hma : matchAt (c :: rest) with
    | some m =>
      rw [hma] at h
      injection h with h1
      subst h1
      obtain ⟨a1, a2, a3, a4⟩ := matchAt_shapes (c :: rest) i f su hma
      exact ⟨a1, a2, a3, fun x hx => (a4 x hx).1⟩
    | none =>
      rw [hma] at h
      exact ih h

theorem lower_not_digit (c : Char) (h : isLowerAZ c = true) :
    isDigitC c = false := by
  unfold isLowerAZ at h
  unfold isDigitC
  simp only [Bool.and_eq_true, decide_eq_true_eq] at h
  simp only [Bool.and_eq_false_iff, decide_eq_false_iff_not]
  omega

theorem lower_ne_dot (c : Char) (h : isLowerAZ c = true) : c ≠ '.' := by
  unfold isLowerAZ at h
  simp only [Bool.and_eq_true, decide_eq_true_eq] at h
  intro hc
  rw [hc] at h
  simp at h

/-- A position whose head is a lowercase letter always matches. -/
theorem matchAt_of_lower (c : Char) (rest : List Char)
    (h : isLowerAZ c = true) : matchAt (c :: rest) ≠ none := by
  unfold matchAt
  simp only [List.span_eq_take_drop]
  rw [List.takeWhile_cons, List.dropWhile_cons, lower_not_digit c h]
  simp only [Bool.false_eq_true, if_false]
  have hne : c ≠ '.' := lower_ne_dot c h
  split
  · rename_i t heq
    exact absurd (List.cons.inj heq).1 hne
  · rw [List.takeWhile_cons, h]
    simp

/-- With no lowercase letter anywhere, no position matches. -/
theorem matchAt_none_of_no_lower (l : List Char)
    (h : ∀ c ∈ l, isLowerAZ c = false) : matchAt l = none := by
  unfold matchAt
  simp only [List.span_eq_take_drop]
  have hmem : ∀ c ∈ l.dropWhile isDigitC, c ∈ l := fun c hc =>
    mem_dropWhile_mem _ _ _ hc
  split
  · rename_i t heq
    have hsu : (t.dropWhile isDigitC).takeWhile isLowerAZ = [] := by
      cases hsp : (t.dropWhile isDigitC).takeWhile isLowerAZ with
      | nil => rfl
      | cons a r =>
        have ha : a ∈ (t.dropWhile isDigitC).takeWhile isLowerAZ := by
          rw [hsp]; simp
        obtain ⟨h1, h2⟩ := mem_takeWhile_pred _ _ _ ha
        have h3 : a ∈ t := mem_dropWhile_mem _ _ _ h2
        have h4 : a ∈ l := hmem a (by rw [heq]; simp [h3])
        rw [h a h4] at h1
        cases h1
    simp only [List.span_eq_take_drop, hsu]
    rfl
  · have hsu : (l.dropWhile isDigitC).takeWhile isLowerAZ = [] := by
      cases hsp : (l.dropWhile isDigitC).takeWhile isLowerAZ with
      | nil => rfl
      | cons a r =>
        have ha : a ∈ (l.dropWhile isDigitC).takeWhile isLowerAZ := by
          rw [hsp]; simp
        obtain ⟨h1, h2⟩ := mem_takeWhile_pred _ _ _ ha
        have h4 : a ∈ l := hmem a h2
        rw [h a h4] at h1
        cases h1
    simp only [hsu]
    rfl

/-- `sizeRegex` fails to match exactly on letter-free strings. -/
theorem findMatch_none_iff (l : List Char) :
    findMatch l = none ↔ ∀ c ∈ l, isLowerAZ c = false := by
  induction l with
  | nil => simp [findMatch]
  | cons c rest ih =>
    constructor
    · intro h
      unfold findMatch at h
      cases hma : matchAt (c :: rest) with
      | some m => rw [hma] at h; cases h
      | none =>
        rw [hma] at h
        intro x hx
        rcases List.mem_cons.mp hx with h1 | h1
        · subst h1
          by_contra hcon
          rw [Bool.not_eq_false] at hcon
          exact matchAt_of_lower x rest hcon hma
        · exact ih.mp h x h1
    · intro h
      unfold findMatch
      rw [matchAt_none_of_no_lower (c :: rest) h]
      exact ih.mpr fun x hx => h x (by simp [hx])

theorem decideRange_shape (a b : ℕ) (neg : Bool) :
    decideRange a b neg = .error .outOfRange ∨
    ∃ x n, decideRange a b neg = .ok (.finite x n) := by
  unfold decideRange
  simp only []
  split_ifs
  · right; exact ⟨_, _, rfl⟩
  · right; exact ⟨_, _, rfl⟩
  · left; rfl
  · right; exact ⟨_, _, rfl⟩

/-- `mkDec` returns an out-of-range error or a finite value, never a
syntax error. -/
theorem mkDec_shape (m fl : ℕ) (ev : ℤ) (neg : Bool) :
    mkDec m fl ev neg = .error .outOfRange ∨
    ∃ x n, mkDec m fl ev neg = .ok (.finite x n) := by
  unfold mkDec
  simp only []
  split_ifs
  · right; exact ⟨_, _, rfl⟩
  · left; rfl
  · right; exact ⟨_, _, rfl⟩
  · exact decideRange_shape _ _ _
  · exact decideRange_shape _ _ _

/-- C3 (counterexample): `"abc"` is non-empty and matches the regex (all
letters, empty numeric portion), so `Parse` returns the `strconv` syntax
error from parsing `""` — not the invalid-format error the spec assigns to
it, nor any other of the spec's three error kinds. -/
theorem parse_error_kind_counterexample :
    ParseS "abc" = .error .numSyntaxErr ∧
    GoErr.numSyntaxErr ≠ GoErr.emptyErr ∧
    GoErr.numSyntaxErr ≠ GoErr.formatErr ∧
    GoErr.numSyntaxErr ≠ GoErr.suffixErr := by
  refine ⟨by decide, by decide, by decide, by decide⟩

/-- C3 (amended): `Parse` classifies errors as `parseSpec` does — empty
input; float fast-path success; no regex match (equivalently: the lowered
string has no `a-z` letter) giving the invalid-format error; a digitless
numeric portion giving `strconv`'s syntax error; a numeric portion
overflowing `float64` giving `strconv`'s range error; an unknown suffix
giving the invalid-suffix error; success otherwise.  Underflow is not an
error: `"1e-400"` parses to 0 on the fast path, and a suffix input whose
numeric portion underflows parses to 0 as well. -/
theorem parse_error_classification :
    (∀ s, Parse s = parseSpec s) ∧
    (∀ l, findMatch l = none ↔ ∀ c ∈ l, isLowerAZ c = false) ∧
    ParseS "1e-400" = .ok (some 0) ∧
    Parse ('.' :: (List.replicate 400 '0' ++ "1kb".data)) = .ok (some 0) := by
  refine ⟨?_, findMatch_none_iff, by decide, by decide⟩
  intro s
  unfold Parse parseSpec
  by_cases hs : s = []
  · rw [if_pos hs, if_pos hs]
  · rw [if_neg hs, if_neg hs]
    cases hgp : goParseFloat s with
    | ok g => rfl
    | error e =>
      cases hm : findMatch (s.map goToLower) with
      | none => rfl
      | some m =>
        obtain ⟨i, f, su⟩ := m
        obtain ⟨hi, hf, hsu, hlo⟩ := findMatch_shapes _ i f su hm
        simp only []
        rw [goParseFloat_digits i f hi hf]
        by_cases hdig : i = [] ∧ (f = [] ∨ f = ['.'])
        · rw [if_pos hdig, if_pos hdig]
        · rw [if_neg hdig, if_neg hdig]
          rcases mkDec_shape (natOfDigits (i ++ fracDigits f))
              (fracDigits f).length 0 false with h | ⟨x, n, h⟩
          · rw [h]
          · rw [h]

/-- C8: `sizeFlag.Set` re-invokes `Parse`; when the parse fails the error
is returned and the stored value is unchanged, when it succeeds the parsed
value is stored and no error is returned (illustrated on a rejected and an
accepted input). -/
theorem flag_set_spec :
    (∀ (prev : Option ℕ) (s : List Char) (e : GoErr),
      Parse s = .error e → sizeFlagSet prev s = (prev, some e)) ∧
    (∀ (prev : Option ℕ) (s : List Char) (v : Option ℕ),
      Parse s = .ok v → sizeFlagSet prev s = (v, none)) ∧
    sizeFlagSet (some 5) "zz".data = (some 5, some .numSyntaxErr) ∧
    sizeFlagSet (some 5) "1kb".data = (some 1000, none) := by
  refine ⟨?_, ?_, by decide, by decide⟩
  · intro prev s e h
    unfold sizeFlagSet
    rw [h]
  · intro prev s v h
    unfold sizeFlagSet
    rw [h]

/-- C10: whenever `strconv.ParseFloat` accepts the whole string, `Parse`
succeeds with the converted value, so the fast path accepts every float
syntax — in particular exponent notation: `Parse "1e3" = 1000`. -/
theorem parse_accepts_float_syntax :
    (∀ s g, goParseFloat s = .ok g → Parse s = .ok (szOfFloat g)) ∧
    ParseS "1e3" = .ok (some 1000) := by
  constructor
  · intro s g h
    have hs : s ≠ [] := by
      intro he
      rw [he, show goParseFloat ([] : List Char) = .error .invalid from rfl] at h
      cases h
    unfold Parse
    rw [if_neg hs, h]
  · decide

/-- C4 (amended): a successful `Parse` truncates the binary64 value the
float parser produced, not the exact decimal value of the input: the fast
path stores `ffloor x` with `ffloor x ≤ fval x < ffloor x + 1`, the regex
path stores the floor of the rounded product, and on the spec's example
the two notions agree: `Parse "510.85MB" = 510850000 = (51085 × 10^6)/100`. -/
theorem parse_truncates :
    (∀ (s : List Char) (x : F), goParseFloat s = .ok (.finite x false) →
      fgeNat x (2 ^ 64) = false →
      Parse s = .ok (some (ffloor x)) ∧
      ((ffloor x : ℚ) ≤ fval x ∧ fval x < ffloor x + 1)) ∧
    (∀ (x : F) (u : ℕ), fgeNat (fmul x (toF u)) (2 ^ 64) = false →
      szOfProd x u = some (ffloor (fmul x (toF u))) ∧
      ((ffloor (fmul x (toF u)) : ℚ) ≤ fval (fmul x (toF u)) ∧
        fval (fmul x (toF u)) < ffloor (fmul x (toF u)) + 1)) ∧
    ParseS "510.85MB" = .ok (some 510850000) ∧
    (51085 : ℕ) * 10 ^ 6 / 100 = 510850000 := by
  refine ⟨?_, ?_, by decide, by decide⟩
  · intro s x hgp hge
    have hs : s ≠ [] := by
      intro he
      rw [he, show goParseFloat ([] : List Char) = .error .invalid from rfl] at hgp
      cases hgp
    refine ⟨?_, ffloor_char x⟩
    unfold Parse
    rw [if_neg hs, hgp]
    simp only [szOfFloat, Bool.false_eq_true, if_false, hge]
  · intro x u h64
    have h1024 : fgeNat (fmul x (toF u)) (2 ^ 1024) = false := by
      by_contra hc
      rw [Bool.not_eq_false] at hc
      have hle := (fgeNat_iff _ _).mp hc
      have h2 : fgeNat (fmul x (toF u)) (2 ^ 64) = true := by
        refine (fgeNat_iff _ _).mpr (le_trans ?_ hle)
        exact_mod_cast Nat.pow_le_pow_right (by norm_num) (by norm_num)
      rw [h64] at h2
      cases h2
    refine ⟨?_, ffloor_char (fmul x (toF u))⟩
    simp only [szOfProd, h1024, h64, Bool.false_eq_true, if_false]

/-- C5 (witness): the amended Round description instantiated at 1500
bytes. -/
theorem round_small_spec_witness :
    1500 < 2 ^ 53 ∧
    (Round 1500 = roundSpec 1500 ∧
      ∀ v k : ℕ, units.find? (fun u => decide (u ≤ 1500)) = some v →
        ((Round 1500 : ℤ) - (1500 : ℤ)).natAbs ≤
          (((k * v : ℕ) : ℤ) - (1500 : ℤ)).natAbs) :=
  ⟨by norm_num, round_small_spec 1500 (by norm_num)⟩

/-- C7 (witness): the no-decimal-point property instantiated at 2048
bytes. -/
theorem floor_round_no_decimal_point_witness :
    2048 < 2 ^ 64 ∧
    ('.' ∉ sizeString (Floor 2048) ∧ '.' ∉ sizeString (Round 2048)) :=
  ⟨by norm_num, floor_round_no_decimal_point 2048 (by norm_num)⟩

end Datasize
